import Mathlib

/-!
# Verification of the apluggy suspendable resource stack coordinator

This file gives a shallow embedding of the core of the `apluggy` repository:

* `stack_gen_ctxs` (src/apluggy/stack/sync.py) — the synchronous stack
  coordinator, a generator-based context manager driving a list of
  generator-based context managers;
* `async_stack_gen_ctxs` (src/apluggy/stack/async_.py) — the asynchronous
  variant with a `sequential` flag;
* `patch_aexit` / `AGenWrapForAexit` (src/apluggy/stack/aexit.py) — the
  finalize-correction patch for `__aexit__`.

Each resource (a plugin-supplied generator context manager) is modelled as an
opaque deterministic state machine `Gen`: the coordinator only ever calls
`next`/`send`/`throw` on its generator, and wraps it behind the CPython
`contextlib._GeneratorContextManager` protocol (`__enter__`/`__exit__`),
whose semantics (`didn't yield`, `didn't stop`, `didn't stop after throw`,
suppression via StopIteration, identity pass-through of the thrown
exception) are reproduced in `ctxEnterStep`/`ctxExit` below.

Runs of the coordinator produce a trace of resource-level events
(`Ev.enter`, `Ev.send`, `Ev.exitc`), on which the specification claims about
activation order, finalization order and error propagation are stated.
-/

namespace Apluggy

/-- Exceptions visible in the model: opaque user exceptions plus the
distinguished exceptions of the Python machinery (`GeneratorExit`,
`StopIteration` as an escaping exception, and the `RuntimeError`s raised by
`contextlib`: "generator didn't yield", "generator didn't stop", "generator
didn't stop after throw()", "generator ignored GeneratorExit", and the
PEP 479 conversion of an escaping StopIteration). -/
inductive Exc (E : Type) where
  | user (e : E)
  | genExit
  | stopIter
  | rtDidNotYield
  | rtDidNotStop
  | rtDidNotStopAfterThrow
  | rtIgnoredGenExit
  | rtPep479
  deriving DecidableEq, Repr

/-- An event delivered to a suspended generator: `next(gen)`, `gen.send(s)`,
or `gen.throw(e)`. -/
inductive GenEvent (S E : Type) where
  | nxt
  | send (s : S)
  | thrown (e : Exc E)
  deriving DecidableEq, Repr

/-- The response of the user code of a generator to one event: yield a value
(moving to a new internal state), return (the generator body finishes), or
raise an exception. -/
inductive GenResp (σ V E : Type) where
  | yielded (v : V) (s : σ)
  | stopped
  | raised (e : Exc E)
  deriving DecidableEq, Repr

/-- A resource's user code: an opaque deterministic generator program.
`step s ev` is what the body does when resumed in internal state `s` by
event `ev`. -/
structure Gen (σ V S E : Type) where
  init : σ
  step : σ → GenEvent S E → GenResp σ V E

/-- Runtime state of a Python generator: still running (suspended at a yield
with internal state `s`) or exhausted. -/
inductive GenState (σ : Type) where
  | run (s : σ)
  | fin
  deriving DecidableEq, Repr

/-- PEP 479: a StopIteration escaping a generator body is converted into a
RuntimeError. -/
def pep479 {E : Type} : Exc E → Exc E
  | .stopIter => .rtPep479
  | e => e

/-- What the caller of `next`/`send`/`throw` on a generator observes: a
yielded value, a StopIteration (the generator finished), or a raised
exception. -/
inductive PResp (V E : Type) where
  | yielded (v : V)
  | finished
  | raised (e : Exc E)
  deriving DecidableEq, Repr

/-- A context manager in flight: the generator program together with its
runtime state. -/
abbrev Ctx (σ V S E : Type) := Gen σ V S E × GenState σ

/-- Semantics of `next`/`send`/`throw` on a Python generator: an exhausted
generator raises StopIteration on `next`/`send` and re-raises (identically)
any exception thrown into it; a running generator runs its body, with an
escaping StopIteration converted by PEP 479. -/
def genStep {σ V S E : Type} (c : Ctx σ V S E) (ev : GenEvent S E) :
    PResp V E × Ctx σ V S E :=
  match c.2, ev with
  | .fin, .thrown e => (.raised e, (c.1, .fin))
  | .fin, .nxt => (.finished, (c.1, .fin))
  | .fin, .send _ => (.finished, (c.1, .fin))
  | .run s, ev =>
    match c.1.step s ev with
    | .yielded v s' => (.yielded v, (c.1, .run s'))
    | .stopped => (.finished, (c.1, .fin))
    | .raised e => (.raised (pep479 e), (c.1, .fin))

/-- The result of `__exit__` on a generator context manager: `ok true` means
the exception was suppressed (returned True), `ok false` means no
suppression (returned False; the in-flight exception, if any, continues
unchanged), `raised e` means `__exit__` itself raised `e`. -/
inductive ExitRes (E : Type) where
  | ok (suppressed : Bool)
  | raised (e : Exc E)
  deriving DecidableEq, Repr

/-- CPython `contextlib._GeneratorContextManager.__exit__`:
with no in-flight exception, run `next(gen)` and demand StopIteration
("generator didn't stop" otherwise); with in-flight exception `val`, run
`gen.throw(val)`: a yield means "generator didn't stop after throw()", a
fresh StopIteration means suppression, re-raising `val` itself means no
suppression, and any other exception propagates. -/
def ctxExit {σ V S E : Type} [DecidableEq E] (c : Ctx σ V S E)
    (exc : Option (Exc E)) : ExitRes E × Ctx σ V S E :=
  match exc with
  | none =>
    match genStep c .nxt with
    | (.finished, c') => (.ok false, c')
    | (.yielded _, c') => (.raised .rtDidNotStop, c')
    | (.raised e, c') => (.raised e, c')
  | some val =>
    match genStep c (.thrown val) with
    | (.yielded _, c') => (.raised .rtDidNotStopAfterThrow, c')
    | (.finished, c') => (.ok true, c')
    | (.raised e, c') => if e = val then (.ok false, c') else (.raised e, c')

/-- Resource-level events observed by instrumentation: an `__enter__`
attempt on resource `i` (with the underlying generator's response), a round
`gen.send` to resource `i`, and an `__exit__` (finalize) call on resource
`i` with the in-flight exception passed to it and its result. -/
inductive Ev (V S E : Type) where
  | enter (i : Nat) (r : PResp V E)
  | send (i : Nat) (s : S) (r : PResp V E)
  | exitc (i : Nat) (exc : Option (Exc E)) (r : ExitRes E)
  deriving DecidableEq, Repr

/-- Pair each list element with its index, starting from `i`. -/
def enumFrom {α : Type} (i : Nat) : List α → List (Nat × α)
  | [] => []
  | a :: l => (i, a) :: enumFrom (i + 1) l

/-- Pair each list element with its index. -/
def enum {α : Type} (l : List α) : List (Nat × α) :=
  enumFrom 0 l

/-- One finalization pass (the `finally` loop of `stack_gen_ctxs` and
`async_stack_gen_ctxs`): call the exit function `xf` on each listed
resource in the given order, threading the in-flight exception: `True`
clears it, `False` keeps it, a raised exception replaces it. -/
def exitPass {σ V S E : Type}
    (xf : Ctx σ V S E → Option (Exc E) → ExitRes E × Ctx σ V S E) :
    List (Nat × Ctx σ V S E) → Option (Exc E) →
      List (Ev V S E) × Option (Exc E)
  | [], exc => ([], exc)
  | (i, c) :: rest, exc =>
    let p := xf c exc
    let exc' := match p.1 with
      | .ok true => none
      | .ok false => exc
      | .raised e => some e
    let q := exitPass xf rest exc'
    (.exitc i exc p.1 :: q.1, q.2)

/-- Result of the activation loop: either all resources entered (with their
checkpoint values and updated states), or some resource failed, with the
prefix of already-entered resources (updated states). -/
inductive EnterOut (σ V S E : Type) where
  | ok (ys : List V) (cs : List (Ctx σ V S E))
  | fail (e : Exc E) (cs : List (Ctx σ V S E))

/-- `__enter__` of a generator context manager observed through `genStep`:
a generator that finishes without yielding raises
RuntimeError("generator didn't yield"). The activation loop of
`stack_gen_ctxs`: enter the resources in order, stopping at the first
failure. -/
def enterAll {σ V S E : Type} (i : Nat) :
    List (Ctx σ V S E) → List (Ev V S E) × EnterOut σ V S E
  | [] => ([], .ok [] [])
  | c :: rest =>
    match genStep c .nxt with
    | (.yielded v, c') =>
      let q := enterAll (i + 1) rest
      match q.2 with
      | .ok ys cs => (.enter i (.yielded v) :: q.1, .ok (v :: ys) (c' :: cs))
      | .fail e cs => (.enter i (.yielded v) :: q.1, .fail e (c' :: cs))
    | (.finished, _) => ([.enter i .finished], .fail .rtDidNotYield [])
    | (.raised e, _) => ([.enter i (.raised e)], .fail e [])

/-- Result of one round over the (reversed, indexed) resources: all yielded
a new checkpoint, or a StopIteration stopped the round (normal completion
of the whole stack), or an exception was raised. In the latter two cases
the returned list still holds every resource (in the same reversed order),
ready for the finalization pass. -/
inductive RoundOut (σ V S E : Type) where
  | ys (vs : List V) (rcs : List (Nat × Ctx σ V S E))
  | stop (rcs : List (Nat × Ctx σ V S E))
  | err (e : Exc E) (rcs : List (Nat × Ctx σ V S E))

/-- The round of `stack_gen_ctxs`:
`[ctx.gen.send(sent) for ctx in reversed(ctxs)]`. The list comprehension is
aborted by the first StopIteration or other exception. -/
def roundSeq {σ V S E : Type} (s : S) :
    List (Nat × Ctx σ V S E) → List (Ev V S E) × RoundOut σ V S E
  | [] => ([], .ys [] [])
  | (i, c) :: rest =>
    match genStep c (.send s) with
    | (.yielded v, c') =>
      let q := roundSeq s rest
      match q.2 with
      | .ys vs rcs => (.send i s (.yielded v) :: q.1, .ys (v :: vs) ((i, c') :: rcs))
      | .stop rcs => (.send i s (.yielded v) :: q.1, .stop ((i, c') :: rcs))
      | .err e rcs => (.send i s (.yielded v) :: q.1, .err e ((i, c') :: rcs))
    | (.finished, c') => ([.send i s .finished], .stop ((i, c') :: rest))
    | (.raised e, c') => ([.send i s (.raised e)], .err e ((i, c') :: rest))

/-- The suspension points of the `stack_gen_ctxs` generator body: at the
first `yield ys` (right after activation), at the `yield` inside the round
loop, or finished (the generator returned or raised). After a successful
activation every resource is in `entered`, so the suspended configuration
is just the list of resource states in index order. -/
inductive StackSt (σ V S E : Type) where
  | suspFirst (cs : List (Ctx σ V S E))
  | suspLoop (cs : List (Ctx σ V S E))
  | done

/-- An event delivered to the suspended stack generator by its caller. -/
inductive StackEv (S E : Type) where
  | send (s : S)
  | thrown (e : Exc E)

/-- The `finally` block of the stack generators starting from a reversed,
indexed resource list and an exit function (`__exit__` for the synchronous
stack, `__aexit__` for the asynchronous one), followed by the final
`raise exc_info[1]` (or a normal return). -/
def finishUpR {σ V S E : Type}
    (xf : Ctx σ V S E → Option (Exc E) → ExitRes E × Ctx σ V S E)
    (rcs : List (Nat × Ctx σ V S E)) (exc : Option (Exc E)) :
    List (Ev V S E) × PResp (List V) E × StackSt σ V S E :=
  let q := exitPass xf rcs exc
  match q.2 with
  | none => (q.1, .finished, .done)
  | some e => (q.1, .raised (pep479 e), .done)

/-- Finalization of the suspended stack: resources are exited in reverse
order of entry (`entered.pop()`). -/
def finishUp {σ V S E : Type}
    (xf : Ctx σ V S E → Option (Exc E) → ExitRes E × Ctx σ V S E)
    (cs : List (Ctx σ V S E)) (exc : Option (Exc E)) :
    List (Ev V S E) × PResp (List V) E × StackSt σ V S E :=
  finishUpR xf (enum cs).reverse exc

/-- One sequential round, from a suspended configuration: on success,
suspend again at the loop yield with the checkpoint values (in reversed
resource order, as the source's list comprehension produces them); on
StopIteration, proceed to normal finalization; on an exception, finalize
with it in flight. -/
def doRound {σ V S E : Type}
    (xf : Ctx σ V S E → Option (Exc E) → ExitRes E × Ctx σ V S E)
    (cs : List (Ctx σ V S E)) (s : S) :
    List (Ev V S E) × PResp (List V) E × StackSt σ V S E :=
  let q := roundSeq s (enum cs).reverse
  match q.2 with
  | .ys vs rcs => (q.1, .yielded vs, .suspLoop (rcs.reverse.map Prod.snd))
  | .stop rcs =>
    let r := finishUpR xf rcs none
    (q.1 ++ r.1, r.2.1, r.2.2)
  | .err e rcs =>
    let r := finishUpR xf rcs (some e)
    (q.1 ++ r.1, r.2.1, r.2.2)

/-- Resuming the `stack_gen_ctxs` generator with an event. A `send` at the
first yield with a nonempty list enters the round loop; with the empty
list, the body falls through and the generator returns. A thrown exception
at the first yield is caught by the outer `except BaseException`; inside
the round loop, a thrown StopIteration is caught by the inner
`except StopIteration` (normal finalization) while anything else reaches
the outer handler. A finished generator answers StopIteration to
`next`/`send` and re-raises anything thrown into it. -/
def stackResume {σ V S E : Type} [DecidableEq E]
    (st : StackSt σ V S E) (ev : StackEv S E) :
    List (Ev V S E) × PResp (List V) E × StackSt σ V S E :=
  match st, ev with
  | .done, .send _ => ([], .finished, .done)
  | .done, .thrown e => ([], .raised e, .done)
  | .suspFirst [], .send _ => finishUp ctxExit ([] : List (Ctx σ V S E)) none
  | .suspFirst (c :: cs), .send s => doRound ctxExit (c :: cs) s
  | .suspFirst cs, .thrown e => finishUp ctxExit cs (some e)
  | .suspLoop cs, .send s => doRound ctxExit cs s
  | .suspLoop cs, .thrown .stopIter => finishUp ctxExit cs none
  | .suspLoop cs, .thrown e => finishUp ctxExit cs (some e)

/-- `gen.close()` on the stack generator: a finished generator is left
alone; otherwise GeneratorExit is thrown in, and `close` returns normally
if the generator finishes or re-raises GeneratorExit (or StopIteration),
reports "generator ignored GeneratorExit" if it yields, and propagates any
other exception. -/
def stackClose {σ V S E : Type} [DecidableEq E] (st : StackSt σ V S E) :
    List (Ev V S E) × Option (Exc E) × StackSt σ V S E :=
  match st with
  | .done => ([], none, .done)
  | st =>
    match stackResume st (.thrown .genExit) with
    | (tr, .finished, st') => (tr, none, st')
    | (tr, .raised .genExit, st') => (tr, none, st')
    | (tr, .raised .stopIter, st') => (tr, none, st')
    | (tr, .raised e, st') => (tr, some e, st')
    | (tr, .yielded _, st') => (tr, some .rtIgnoredGenExit, st')

/-- A caller action on the opened stack: `stack.gen.send(s)` (advance),
`stack.gen.throw(e)` (abort), or `stack.gen.close()`. -/
inductive Call (S E : Type) where
  | send (s : S)
  | throw (e : Exc E)
  | close
  deriving DecidableEq, Repr

/-- What the caller observes for one action: new checkpoint values, a
StopIteration (the stack completed), a raised exception, or the return of
`close()` (with the exception it propagated, if any). -/
inductive CallRes (V E : Type) where
  | ys (vs : List V)
  | stop
  | raised (e : Exc E)
  | closed (err : Option (Exc E))
  deriving DecidableEq, Repr

/-- Perform one caller action on the stack. -/
def doCall {σ V S E : Type} [DecidableEq E] (st : StackSt σ V S E) :
    Call S E → List (Ev V S E) × CallRes V E × StackSt σ V S E
  | .send s =>
    match stackResume st (.send s) with
    | (tr, .yielded vs, st') => (tr, .ys vs, st')
    | (tr, .finished, st') => (tr, .stop, st')
    | (tr, .raised e, st') => (tr, .raised e, st')
  | .throw e =>
    match stackResume st (.thrown e) with
    | (tr, .yielded vs, st') => (tr, .ys vs, st')
    | (tr, .finished, st') => (tr, .stop, st')
    | (tr, .raised e', st') => (tr, .raised e', st')
  | .close =>
    let q := stackClose st
    (q.1, .closed q.2.1, q.2.2)

/-- Run a list of caller actions in order. -/
def runCalls {σ V S E : Type} [DecidableEq E] (st : StackSt σ V S E) :
    List (Call S E) →
      List (List (Ev V S E) × CallRes V E) × StackSt σ V S E
  | [] => ([], st)
  | c :: rest =>
    let q := doCall st c
    let r := runCalls q.2.2 rest
    ((q.1, q.2.1) :: r.1, r.2)

/-- `stack.__enter__()`: run the stack generator to its first yield. If a
resource fails during activation, the already-entered prefix is finalized
in reverse order with the error in flight; if the error survives it
propagates out of `__enter__`, and if it was suppressed the generator
returns without yielding, which `contextlib` converts into
RuntimeError("generator didn't yield"). -/
def stackOpen {σ V S E : Type} [DecidableEq E] (gens : List (Gen σ V S E)) :
    List (Ev V S E) × Except (Exc E) (List V) × StackSt σ V S E :=
  let cs := gens.map (fun g => ((g, GenState.run g.init) : Ctx σ V S E))
  let q := enterAll 0 cs
  match q.2 with
  | .ok ys cs' => (q.1, .ok ys, .suspFirst cs')
  | .fail e cs' =>
    let r := exitPass ctxExit (enum cs').reverse (some e)
    match r.2 with
    | none => (q.1 ++ r.1, .error .rtDidNotYield, .done)
    | some e' => (q.1 ++ r.1, .error (pep479 e'), .done)

/-- A complete interaction with the synchronous stack: the open trace and
result, the per-call traces and results, and the final generator state. -/
structure Run (σ V S E : Type) where
  openTr : List (Ev V S E)
  openRes : Except (Exc E) (List V)
  calls : List (List (Ev V S E) × CallRes V E)
  final : StackSt σ V S E

/-- Run `stack_gen_ctxs gens` against a caller script. -/
def runStack {σ V S E : Type} [DecidableEq E] (gens : List (Gen σ V S E))
    (script : List (Call S E)) : Run σ V S E :=
  let q := stackOpen gens
  let r := runCalls q.2.2 script
  ⟨q.1, q.2.1, r.1, r.2⟩

/-- All resource-level events of a run, in order. -/
def Run.trace {σ V S E : Type} (r : Run σ V S E) : List (Ev V S E) :=
  r.openTr ++ (r.calls.map Prod.fst).flatten

/-- Indices of the `__exit__` (finalize) calls in a trace, in order. -/
def exitIdxs {V S E : Type} (tr : List (Ev V S E)) : List Nat :=
  tr.filterMap fun ev => match ev with
    | .exitc i _ _ => some i
    | _ => none

/-- The `__exit__` (finalize) calls in a trace, with the exception passed
to each and its result. -/
def exitEvs {V S E : Type} (tr : List (Ev V S E)) :
    List (Nat × Option (Exc E) × ExitRes E) :=
  tr.filterMap fun ev => match ev with
    | .exitc i exc r => some (i, exc, r)
    | _ => none

/-- Indices of the successful `__enter__` calls in a trace, in order. -/
def enterOks {V S E : Type} (tr : List (Ev V S E)) : List Nat :=
  tr.filterMap fun ev => match ev with
    | .enter i (.yielded _) => some i
    | _ => none

/-- The resource index an event touches. -/
def evIdx {V S E : Type} : Ev V S E → Nat
  | .enter i _ => i
  | .send i _ _ => i
  | .exitc i _ _ => i

/-!
## The asynchronous generator layer and the finalize-correction patch

Asynchronous generators differ from synchronous ones in one place the
repository cares about (src/apluggy/stack/aexit.py): `athrow` on an
*exhausted* async generator returns without raising, instead of re-raising
the thrown exception as the synchronous `throw` does.
-/

/-- What `gen.athrow(val)` can do: yield a value, raise
StopAsyncIteration (the body finished while handling), raise an exception,
or return without raising (the generator was already exhausted). -/
inductive AthrowResp (V E : Type) where
  | yielded (v : V)
  | saStop
  | raised (e : Exc E)
  | noRaise
  deriving DecidableEq, Repr

/-- `athrow` on an async generator: an exhausted generator returns without
raising; a running generator runs its body (PEP 479/525 conversion of an
escaping Stop(Async)Iteration included). -/
def aGenAthrow {σ V S E : Type} (c : Ctx σ V S E) (val : Exc E) :
    AthrowResp V E × Ctx σ V S E :=
  match c.2 with
  | .fin => (.noRaise, (c.1, .fin))
  | .run s =>
    match c.1.step s (.thrown val) with
    | .yielded v s' => (.yielded v, (c.1, .run s'))
    | .stopped => (.saStop, (c.1, .fin))
    | .raised e => (.raised (pep479 e), (c.1, .fin))

/-- CPython `contextlib._AsyncGeneratorContextManager.__aexit__` (the
*unpatched* finalize used by `async_stack_gen_ctxs`): same protocol as the
synchronous `__exit__`, but built on `athrow`, so an exhausted generator
makes it reach `raise RuntimeError("generator didn't stop after athrow()")`
instead of re-raising the in-flight exception. -/
def actxExit {σ V S E : Type} [DecidableEq E] (c : Ctx σ V S E)
    (exc : Option (Exc E)) : ExitRes E × Ctx σ V S E :=
  match exc with
  | none =>
    match genStep c .nxt with
    | (.finished, c') => (.ok false, c')
    | (.yielded _, c') => (.raised .rtDidNotStop, c')
    | (.raised e, c') => (.raised e, c')
  | some val =>
    match aGenAthrow c val with
    | (.yielded _, c') => (.raised .rtDidNotStopAfterThrow, c')
    | (.noRaise, c') => (.raised .rtDidNotStopAfterThrow, c')
    | (.saStop, c') => (.ok true, c')
    | (.raised e, c') => if e = val then (.ok false, c') else (.raised e, c')

/-- `AGenWrapForAexit.athrow` (src/apluggy/stack/aexit.py): forward the
athrow; if it did not raise, probe the generator with `anext`: if that
raises StopAsyncIteration the generator is exhausted and the *original*
injected exception is re-raised; if it yields, the method returns without
raising (so `__aexit__` will report "didn't stop after athrow()"); any
other exception from the probe propagates. -/
def patchedAthrow {σ V S E : Type} (c : Ctx σ V S E) (val : Exc E) :
    AthrowResp V E × Ctx σ V S E :=
  match aGenAthrow c val with
  | (.saStop, c') => (.saStop, c')
  | (.raised e, c') => (.raised e, c')
  | (.yielded _, c') =>
    match genStep c' .nxt with
    | (.finished, c'') => (.raised val, c'')
    | (.yielded _, c'') => (.noRaise, c'')
    | (.raised e, c'') => (.raised e, c'')
  | (.noRaise, c') =>
    match genStep c' .nxt with
    | (.finished, c'') => (.raised val, c'')
    | (.yielded _, c'') => (.noRaise, c'')
    | (.raised e, c'') => (.raised e, c'')

/-- `__aexit__` with `patch_aexit` in effect: identical to `actxExit`
except that the generator's `athrow` is the wrapped `patchedAthrow`. -/
def actxExitPatched {σ V S E : Type} [DecidableEq E] (c : Ctx σ V S E)
    (exc : Option (Exc E)) : ExitRes E × Ctx σ V S E :=
  match exc with
  | none =>
    match genStep c .nxt with
    | (.finished, c') => (.ok false, c')
    | (.yielded _, c') => (.raised .rtDidNotStop, c')
    | (.raised e, c') => (.raised e, c')
  | some val =>
    match patchedAthrow c val with
    | (.yielded _, c') => (.raised .rtDidNotStopAfterThrow, c')
    | (.noRaise, c') => (.raised .rtDidNotStopAfterThrow, c')
    | (.saStop, c') => (.ok true, c')
    | (.raised e, c') => if e = val then (.ok false, c') else (.raised e, c')

/-!
## The asynchronous stack coordinator (`async_stack_gen_ctxs`)

Identical state machine, with a `sequential` flag: when false, activation
and the round `asend`s are dispatched with `asyncio.gather`. The model
covers resources whose operations complete without suspending on external
events, for which `gather` runs every task to completion in argument
order and propagates the first failure — so, unlike the sequential mode,
*all* resources are driven in a gathered phase even if one of them fails.
Finalization is the same sequential reverse loop in both modes, skipping
resources that never entered, and uses the unpatched `__aexit__`. -/

/-- Run one generator event on every listed resource (the gathered fan-out
of `asyncio.gather`, in task-creation order). -/
def gatherSteps {σ V S E : Type} (l : List (Nat × Ctx σ V S E))
    (ev : GenEvent S E) : List (Nat × (PResp V E × Ctx σ V S E)) :=
  l.map (fun p => (p.1, genStep p.2 ev))

/-- The first abnormal completion among gathered tasks, if any. -/
inductive BadResp (E : Type) where
  | fin
  | err (e : Exc E)

/-- Find the first non-yield response (the exception `gather` propagates,
in completion order = argument order for non-suspending resources). -/
def firstBad {σ V S E : Type} :
    List (Nat × (PResp V E × Ctx σ V S E)) → Option (BadResp E)
  | [] => none
  | (_, (.yielded _, _)) :: rest => firstBad rest
  | (_, (.finished, _)) :: _ => some .fin
  | (_, (.raised e, _)) :: _ => some (.err e)

/-- Did this gathered task yield a value (did its `__aenter__`/`asend`
succeed)? -/
def isYieldResp {V E : Type} : PResp V E → Bool
  | .yielded _ => true
  | _ => false

/-- The yielded values of gathered tasks, in order. -/
def gatherVals {σ V S E : Type}
    (l : List (Nat × (PResp V E × Ctx σ V S E))) : List V :=
  l.filterMap fun p => match p.2.1 with
    | .yielded v => some v
    | _ => none

/-- One round of `async_stack_gen_ctxs`: sequential `asend`s in reversed
order, or a gathered fan-out over the same reversed list. Either way a
failed round is followed by the same sequential reverse finalization. -/
def doRoundA {σ V S E : Type} [DecidableEq E] (sequential : Bool)
    (cs : List (Ctx σ V S E)) (s : S) :
    List (Ev V S E) × PResp (List V) E × StackSt σ V S E :=
  match sequential with
  | true => doRound actxExit cs s
  | false =>
    let stepL := gatherSteps (enum cs).reverse (.send s)
    let tr := stepL.map fun p => Ev.send p.1 s p.2.1
    let rcs := stepL.map fun p => (p.1, p.2.2)
    match firstBad stepL with
    | none => (tr, .yielded (gatherVals stepL), .suspLoop (rcs.reverse.map Prod.snd))
    | some .fin =>
      let r := finishUpR actxExit rcs none
      (tr ++ r.1, r.2.1, r.2.2)
    | some (.err e) =>
      let r := finishUpR actxExit rcs (some e)
      (tr ++ r.1, r.2.1, r.2.2)

/-- Resuming the `async_stack_gen_ctxs` generator, mirroring
`stackResume`. -/
def astackResume {σ V S E : Type} [DecidableEq E] (sequential : Bool)
    (st : StackSt σ V S E) (ev : StackEv S E) :
    List (Ev V S E) × PResp (List V) E × StackSt σ V S E :=
  match st, ev with
  | .done, .send _ => ([], .finished, .done)
  | .done, .thrown e => ([], .raised e, .done)
  | .suspFirst [], .send _ => finishUp actxExit ([] : List (Ctx σ V S E)) none
  | .suspFirst (c :: cs), .send s => doRoundA sequential (c :: cs) s
  | .suspFirst cs, .thrown e => finishUp actxExit cs (some e)
  | .suspLoop cs, .send s => doRoundA sequential cs s
  | .suspLoop cs, .thrown .stopIter => finishUp actxExit cs none
  | .suspLoop cs, .thrown e => finishUp actxExit cs (some e)

/-- `gen.aclose()` on the async stack generator. -/
def astackClose {σ V S E : Type} [DecidableEq E] (sequential : Bool)
    (st : StackSt σ V S E) :
    List (Ev V S E) × Option (Exc E) × StackSt σ V S E :=
  match st with
  | .done => ([], none, .done)
  | st =>
    match astackResume sequential st (.thrown .genExit) with
    | (tr, .finished, st') => (tr, none, st')
    | (tr, .raised .genExit, st') => (tr, none, st')
    | (tr, .raised .stopIter, st') => (tr, none, st')
    | (tr, .raised e, st') => (tr, some e, st')
    | (tr, .yielded _, st') => (tr, some .rtIgnoredGenExit, st')

/-- Perform one caller action on the async stack. -/
def adoCall {σ V S E : Type} [DecidableEq E] (sequential : Bool)
    (st : StackSt σ V S E) :
    Call S E → List (Ev V S E) × CallRes V E × StackSt σ V S E
  | .send s =>
    match astackResume sequential st (.send s) with
    | (tr, .yielded vs, st') => (tr, .ys vs, st')
    | (tr, .finished, st') => (tr, .stop, st')
    | (tr, .raised e, st') => (tr, .raised e, st')
  | .throw e =>
    match astackResume sequential st (.thrown e) with
    | (tr, .yielded vs, st') => (tr, .ys vs, st')
    | (tr, .finished, st') => (tr, .stop, st')
    | (tr, .raised e', st') => (tr, .raised e', st')
  | .close =>
    let q := astackClose sequential st
    (q.1, .closed q.2.1, q.2.2)

/-- Run a list of caller actions on the async stack in order. -/
def arunCalls {σ V S E : Type} [DecidableEq E] (sequential : Bool)
    (st : StackSt σ V S E) :
    List (Call S E) →
      List (List (Ev V S E) × CallRes V E) × StackSt σ V S E
  | [] => ([], st)
  | c :: rest =>
    let q := adoCall sequential st c
    let r := arunCalls sequential q.2.2 rest
    ((q.1, q.2.1) :: r.1, r.2)

/-- `stack.__aenter__()`: sequential activation stops at the first
failure; gathered activation drives every resource and propagates the
first failure, with the set of entered resources (those whose `__aenter__`
succeeded) finalized in reverse order. -/
def astackOpen {σ V S E : Type} [DecidableEq E] (sequential : Bool)
    (gens : List (Gen σ V S E)) :
    List (Ev V S E) × Except (Exc E) (List V) × StackSt σ V S E :=
  let cs := gens.map (fun g => ((g, GenState.run g.init) : Ctx σ V S E))
  match sequential with
  | true =>
    let q := enterAll 0 cs
    match q.2 with
    | .ok ys cs' => (q.1, .ok ys, .suspFirst cs')
    | .fail e cs' =>
      let r := exitPass actxExit (enum cs').reverse (some e)
      match r.2 with
      | none => (q.1 ++ r.1, .error .rtDidNotYield, .done)
      | some e' => (q.1 ++ r.1, .error (pep479 e'), .done)
  | false =>
    let stepL := gatherSteps (enum cs) .nxt
    let tr := stepL.map fun p => Ev.enter p.1 p.2.1
    match firstBad stepL with
    | none => (tr, .ok (gatherVals stepL), .suspFirst (stepL.map fun p => p.2.2))
    | some bad =>
      let e := match bad with
        | .fin => Exc.rtDidNotYield
        | .err e0 => e0
      let entered := stepL.filter fun p => isYieldResp p.2.1
      let r := exitPass actxExit (entered.reverse.map fun p => (p.1, p.2.2)) (some e)
      match r.2 with
      | none => (tr ++ r.1, .error .rtDidNotYield, .done)
      | some e' => (tr ++ r.1, .error (pep479 e'), .done)

/-- Run `async_stack_gen_ctxs gens sequential` against a caller script. -/
def arunStack {σ V S E : Type} [DecidableEq E] (sequential : Bool)
    (gens : List (Gen σ V S E)) (script : List (Call S E)) : Run σ V S E :=
  let q := astackOpen sequential gens
  let r := arunCalls sequential q.2.2 script
  ⟨q.1, q.2.1, r.1, r.2⟩

/-!
## Trace bookkeeping lemmas
-/

variable {σ V S E : Type}

@[simp] theorem exitIdxs_nil : exitIdxs ([] : List (Ev V S E)) = [] := rfl

@[simp] theorem exitIdxs_append (a b : List (Ev V S E)) :
    exitIdxs (a ++ b) = exitIdxs a ++ exitIdxs b := by
  simp [exitIdxs]

@[simp] theorem exitIdxs_cons_exitc (i : Nat) (exc : Option (Exc E))
    (r : ExitRes E) (tr : List (Ev V S E)) :
    exitIdxs (Ev.exitc i exc r :: tr) = i :: exitIdxs tr := rfl

@[simp] theorem exitIdxs_cons_enter (i : Nat) (r : PResp V E)
    (tr : List (Ev V S E)) :
    exitIdxs (Ev.enter i r :: tr) = exitIdxs tr := rfl

@[simp] theorem exitIdxs_cons_send (i : Nat) (s : S) (r : PResp V E)
    (tr : List (Ev V S E)) :
    exitIdxs (Ev.send i s r :: tr) = exitIdxs tr := rfl

@[simp] theorem enterOks_nil : enterOks ([] : List (Ev V S E)) = [] := rfl

@[simp] theorem enterOks_append (a b : List (Ev V S E)) :
    enterOks (a ++ b) = enterOks a ++ enterOks b := by
  simp [enterOks]

@[simp] theorem enterOks_cons_yield (i : Nat) (v : V)
    (tr : List (Ev V S E)) :
    enterOks (Ev.enter i (.yielded v) :: tr) = i :: enterOks tr := rfl

@[simp] theorem enterOks_cons_fin (i : Nat) (tr : List (Ev V S E)) :
    enterOks (Ev.enter i (PResp.finished (V := V)) :: tr) = enterOks tr := rfl

@[simp] theorem enterOks_cons_raised (i : Nat) (e : Exc E)
    (tr : List (Ev V S E)) :
    enterOks (Ev.enter i (PResp.raised (V := V) e) :: tr) = enterOks tr := rfl

@[simp] theorem enterOks_cons_send (i : Nat) (s : S) (r : PResp V E)
    (tr : List (Ev V S E)) :
    enterOks (Ev.send i s r :: tr) = enterOks tr := rfl

@[simp] theorem enterOks_cons_exitc (i : Nat) (exc : Option (Exc E))
    (r : ExitRes E) (tr : List (Ev V S E)) :
    enterOks (Ev.exitc i exc r :: tr) = enterOks tr := rfl

@[simp] theorem exitEvs_nil : exitEvs ([] : List (Ev V S E)) = [] := rfl

@[simp] theorem exitEvs_append (a b : List (Ev V S E)) :
    exitEvs (a ++ b) = exitEvs a ++ exitEvs b := by
  simp [exitEvs]

@[simp] theorem exitEvs_cons_exitc (i : Nat) (exc : Option (Exc E))
    (r : ExitRes E) (tr : List (Ev V S E)) :
    exitEvs (Ev.exitc i exc r :: tr) = (i, exc, r) :: exitEvs tr := rfl

@[simp] theorem exitEvs_cons_enter (i : Nat) (r : PResp V E)
    (tr : List (Ev V S E)) :
    exitEvs (Ev.enter i r :: tr) = exitEvs tr := rfl

@[simp] theorem exitEvs_cons_send (i : Nat) (s : S) (r : PResp V E)
    (tr : List (Ev V S E)) :
    exitEvs (Ev.send i s r :: tr) = exitEvs tr := rfl

@[simp] theorem enumFrom_nil {α : Type} (i : Nat) :
    enumFrom i ([] : List α) = [] := rfl

@[simp] theorem enumFrom_cons {α : Type} (i : Nat) (a : α) (l : List α) :
    enumFrom i (a :: l) = (i, a) :: enumFrom (i + 1) l := rfl

theorem enumFrom_map_fst {α : Type} (i : Nat) (l : List α) :
    (enumFrom i l).map Prod.fst = List.range' i l.length := by
  induction l generalizing i with
  | nil => rfl
  | cons a l ih => simp [List.range'_succ, ih]

theorem enumFrom_map_snd {α : Type} (i : Nat) (l : List α) :
    (enumFrom i l).map Prod.snd = l := by
  induction l generalizing i with
  | nil => rfl
  | cons a l ih => simp [ih]

theorem enumFrom_length {α : Type} (i : Nat) (l : List α) :
    (enumFrom i l).length = l.length := by
  induction l generalizing i with
  | nil => rfl
  | cons a l ih => simp [ih]

theorem mem_enumFrom_snd {α : Type} {p : Nat × α} {i : Nat} {l : List α}
    (h : p ∈ enumFrom i l) : p.2 ∈ l := by
  induction l generalizing i with
  | nil => simp at h
  | cons a l ih =>
    rcases List.mem_cons.mp h with h | h
    · simp [h]
    · exact List.mem_cons_of_mem _ (ih h)

theorem enum_map_fst {α : Type} (l : List α) :
    (enum l).map Prod.fst = List.range l.length := by
  rw [enum, enumFrom_map_fst, List.range_eq_range']

/-!
## Lemmas about the finalization pass
-/

theorem exitPass_idxs (xf : Ctx σ V S E → Option (Exc E) → ExitRes E × Ctx σ V S E)
    (l : List (Nat × Ctx σ V S E)) (exc : Option (Exc E)) :
    exitIdxs (exitPass xf l exc).1 = l.map Prod.fst := by
  induction l generalizing exc with
  | nil => rfl
  | cons p rest ih =>
    obtain ⟨i, c⟩ := p
    simp [exitPass, ih]

theorem exitPass_enterOks (xf : Ctx σ V S E → Option (Exc E) → ExitRes E × Ctx σ V S E)
    (l : List (Nat × Ctx σ V S E)) (exc : Option (Exc E)) :
    enterOks (exitPass xf l exc).1 = [] := by
  induction l generalizing exc with
  | nil => rfl
  | cons p rest ih =>
    obtain ⟨i, c⟩ := p
    simp [exitPass, ih]

theorem exitPass_mem (xf : Ctx σ V S E → Option (Exc E) → ExitRes E × Ctx σ V S E)
    (l : List (Nat × Ctx σ V S E)) (exc : Option (Exc E)) :
    ∀ ev ∈ (exitPass xf l exc).1,
      ∃ i exc' r, ev = Ev.exitc i exc' r ∧ i ∈ l.map Prod.fst := by
  induction l generalizing exc with
  | nil => simp [exitPass]
  | cons p rest ih =>
    obtain ⟨i, c⟩ := p
    intro ev hev
    simp only [exitPass] at hev
    rcases List.mem_cons.mp hev with h | h
    · exact ⟨i, exc, _, h, by simp⟩
    · obtain ⟨j, exc', r, hj, hmem⟩ := ih _ ev h
      exact ⟨j, exc', r, hj, by simp [hmem]⟩

theorem exitPass_append (xf : Ctx σ V S E → Option (Exc E) → ExitRes E × Ctx σ V S E)
    (l1 l2 : List (Nat × Ctx σ V S E)) (exc : Option (Exc E)) :
    exitPass xf (l1 ++ l2) exc =
      ((exitPass xf l1 exc).1 ++ (exitPass xf l2 (exitPass xf l1 exc).2).1,
        (exitPass xf l2 (exitPass xf l1 exc).2).2) := by
  induction l1 generalizing exc with
  | nil => simp [exitPass]
  | cons p rest ih =>
    obtain ⟨i, c⟩ := p
    simp [exitPass, ih]

/-!
## Lemmas about single generator steps
-/

theorem genStep_gen (c : Ctx σ V S E) (ev : GenEvent S E) :
    (genStep c ev).2.1 = c.1 := by
  obtain ⟨g, st⟩ := c
  cases st with
  | fin => cases ev <;> rfl
  | run s => cases hs : g.step s ev <;> simp [genStep, hs]

theorem genStep_yielded_state {g : Gen σ V S E} {st : GenState σ}
    {ev : GenEvent S E} {v : V} {c' : Ctx σ V S E}
    (h : genStep (g, st) ev = (.yielded v, c')) :
    ∃ s', c' = (g, GenState.run s') := by
  cases st with
  | fin => cases ev <;> simp [genStep] at h
  | run s =>
    cases hs : g.step s ev <;> simp [genStep, hs] at h
    exact ⟨_, h.2.symm⟩

/-!
## Lemmas about activation
-/

theorem enterAll_ok_spec {i : Nat} {cs : List (Ctx σ V S E)} {ys : List V}
    {cs' : List (Ctx σ V S E)} (h : (enterAll i cs).2 = .ok ys cs') :
    enterOks (enterAll i cs).1 = List.range' i cs.length
    ∧ exitIdxs (enterAll i cs).1 = []
    ∧ cs'.length = cs.length
    ∧ cs'.map Prod.fst = cs.map Prod.fst
    ∧ (∀ c ∈ cs', ∃ s, c.2 = GenState.run s) := by
  induction cs generalizing i ys cs' with
  | nil =>
    simp [enterAll] at h
    obtain ⟨-, h2⟩ := h
    subst h2
    simp [enterAll]
  | cons c rest ih =>
    obtain ⟨g, st⟩ := c
    cases st with
    | fin => simp [enterAll, genStep] at h
    | run s =>
      cases hs : g.step s .nxt with
      | yielded v2 s2 =>
        rcases hq : (enterAll (i + 1) rest).2 with ⟨ys2, cs2⟩ | ⟨e, cs2⟩
        · obtain ⟨ih1, ih2, ih3, ih4, ih5⟩ := ih hq
          simp only [enterAll, genStep, hs] at h ⊢
          rw [hq] at h ⊢
          simp at h
          obtain ⟨-, hcs⟩ := h
          subst hcs
          refine ⟨?_, ?_, ?_, ?_, ?_⟩
          · simp [List.range'_succ, ih1]
          · simp [ih2]
          · simp [ih3]
          · simp [ih4]
          · intro c hc
            rcases List.mem_cons.mp hc with hc | hc
            · exact ⟨s2, by simp [hc]⟩
            · exact ih5 c hc
        · simp only [enterAll, genStep, hs] at h
          rw [hq] at h
          simp at h
      | stopped => simp [enterAll, genStep, hs] at h
      | raised e => simp [enterAll, genStep, hs] at h

theorem enterAll_fail_spec {i : Nat} {cs : List (Ctx σ V S E)} {e : Exc E}
    {cs' : List (Ctx σ V S E)} (h : (enterAll i cs).2 = .fail e cs') :
    enterOks (enterAll i cs).1 = List.range' i cs'.length
    ∧ exitIdxs (enterAll i cs).1 = []
    ∧ (∀ c ∈ cs', ∃ s, c.2 = GenState.run s) := by
  induction cs generalizing i e cs' with
  | nil => simp [enterAll] at h
  | cons c rest ih =>
    obtain ⟨g, st⟩ := c
    cases st with
    | fin =>
      simp [enterAll, genStep] at h ⊢
      obtain ⟨-, h2⟩ := h
      subst h2
      simp
    | run s =>
      cases hs : g.step s .nxt with
      | yielded v2 s2 =>
        rcases hq : (enterAll (i + 1) rest).2 with ⟨ys2, cs2⟩ | ⟨e2, cs2⟩
        · simp only [enterAll, genStep, hs] at h
          rw [hq] at h
          simp at h
        · obtain ⟨ih1, ih2, ih3⟩ := ih hq
          simp only [enterAll, genStep, hs] at h ⊢
          rw [hq] at h ⊢
          simp at h
          obtain ⟨-, hcs⟩ := h
          subst hcs
          refine ⟨by simp [List.range'_succ, ih1], by simp [ih2], ?_⟩
          intro c hc
          rcases List.mem_cons.mp hc with hc | hc
          · exact ⟨s2, by simp [hc]⟩
          · exact ih3 c hc
      | stopped =>
        simp [enterAll, genStep, hs] at h ⊢
        obtain ⟨-, h2⟩ := h
        subst h2
        simp
      | raised e2 =>
        simp [enterAll, genStep, hs] at h ⊢
        obtain ⟨-, h2⟩ := h
        subst h2
        simp

/-!
## Lemmas about rounds
-/

/-- The resource list carried by a round outcome. -/
def roundRcs : RoundOut σ V S E → List (Nat × Ctx σ V S E)
  | .ys _ rcs => rcs
  | .stop rcs => rcs
  | .err _ rcs => rcs

theorem roundSeq_exitIdxs (s : S) (l : List (Nat × Ctx σ V S E)) :
    exitIdxs (roundSeq s l).1 = [] := by
  induction l with
  | nil => rfl
  | cons p rest ih =>
    obtain ⟨i, c⟩ := p
    rcases hg : genStep c (.send s) with ⟨r, c2⟩
    cases r with
    | yielded v =>
      rcases hq : (roundSeq s rest).2 with ⟨vs, rcs⟩ | ⟨rcs⟩ | ⟨e, rcs⟩ <;>
        · simp only [roundSeq, hg]
          rw [hq]
          simpa using ih
    | finished => simp [roundSeq, hg]
    | raised e => simp [roundSeq, hg]

theorem roundSeq_enterOks (s : S) (l : List (Nat × Ctx σ V S E)) :
    enterOks (roundSeq s l).1 = [] := by
  induction l with
  | nil => rfl
  | cons p rest ih =>
    obtain ⟨i, c⟩ := p
    rcases hg : genStep c (.send s) with ⟨r, c2⟩
    cases r with
    | yielded v =>
      rcases hq : (roundSeq s rest).2 with ⟨vs, rcs⟩ | ⟨rcs⟩ | ⟨e, rcs⟩ <;>
        · simp only [roundSeq, hg]
          rw [hq]
          simpa using ih
    | finished => simp [roundSeq, hg]
    | raised e => simp [roundSeq, hg]

theorem roundSeq_fst (s : S) (l : List (Nat × Ctx σ V S E)) :
    (roundRcs (roundSeq s l).2).map Prod.fst = l.map Prod.fst := by
  induction l with
  | nil => rfl
  | cons p rest ih =>
    obtain ⟨i, c⟩ := p
    rcases hg : genStep c (.send s) with ⟨r, c2⟩
    cases r with
    | yielded v =>
      rcases hq : (roundSeq s rest).2 with ⟨vs, rcs⟩ | ⟨rcs⟩ | ⟨e, rcs⟩ <;>
        · rw [hq] at ih
          simp only [roundSeq, hg]
          rw [hq]
          simpa [roundRcs] using ih
    | finished => simp [roundSeq, hg, roundRcs]
    | raised e => simp [roundSeq, hg, roundRcs]

/-!
## Lemmas about finalization and resumption
-/

theorem finishUpR_done
    (xf : Ctx σ V S E → Option (Exc E) → ExitRes E × Ctx σ V S E)
    (rcs : List (Nat × Ctx σ V S E)) (exc : Option (Exc E)) :
    (finishUpR xf rcs exc).2.2 = .done := by
  rcases h : (exitPass xf rcs exc).2 with - | e <;> simp [finishUpR, h]

theorem finishUpR_exitIdxs
    (xf : Ctx σ V S E → Option (Exc E) → ExitRes E × Ctx σ V S E)
    (rcs : List (Nat × Ctx σ V S E)) (exc : Option (Exc E)) :
    exitIdxs (finishUpR xf rcs exc).1 = rcs.map Prod.fst := by
  rcases h : (exitPass xf rcs exc).2 with - | e <;>
    simp [finishUpR, h, exitPass_idxs]

theorem finishUpR_enterOks
    (xf : Ctx σ V S E → Option (Exc E) → ExitRes E × Ctx σ V S E)
    (rcs : List (Nat × Ctx σ V S E)) (exc : Option (Exc E)) :
    enterOks (finishUpR xf rcs exc).1 = [] := by
  rcases h : (exitPass xf rcs exc).2 with - | e <;>
    simp [finishUpR, h, exitPass_enterOks]

theorem finishUp_exitIdxs
    (xf : Ctx σ V S E → Option (Exc E) → ExitRes E × Ctx σ V S E)
    (cs : List (Ctx σ V S E)) (exc : Option (Exc E)) :
    exitIdxs (finishUp xf cs exc).1 = (List.range cs.length).reverse := by
  rw [finishUp, finishUpR_exitIdxs, List.map_reverse, enum_map_fst]

theorem doRound_spec
    (xf : Ctx σ V S E → Option (Exc E) → ExitRes E × Ctx σ V S E)
    (cs : List (Ctx σ V S E)) (s : S) :
    (exitIdxs (doRound xf cs s).1 = [] ∧ enterOks (doRound xf cs s).1 = []
      ∧ (∃ vs, (doRound xf cs s).2.1 = .yielded vs)
      ∧ ∃ cs', (doRound xf cs s).2.2 = .suspLoop cs' ∧ cs'.length = cs.length)
    ∨ (exitIdxs (doRound xf cs s).1 = (List.range cs.length).reverse
      ∧ enterOks (doRound xf cs s).1 = [] ∧ (doRound xf cs s).2.2 = .done) := by
  have hfst := roundSeq_fst s (enum cs).reverse
  rcases hq : (roundSeq s (enum cs).reverse).2 with ⟨vs, rcs⟩ | ⟨rcs⟩ | ⟨e, rcs⟩ <;>
    rw [hq] at hfst <;> simp only [roundRcs] at hfst
  · left
    simp only [doRound]
    rw [hq]
    refine ⟨by simp [roundSeq_exitIdxs], by simp [roundSeq_enterOks], ⟨vs, rfl⟩,
      rcs.reverse.map Prod.snd, rfl, ?_⟩
    have : rcs.length = cs.length := by
      have := congrArg List.length hfst
      simpa [enumFrom_length, enum] using this
    simp [this]
  · right
    simp only [doRound]
    rw [hq]
    refine ⟨?_, ?_, ?_⟩
    · simp [roundSeq_exitIdxs, finishUpR_exitIdxs, hfst, List.map_reverse,
        enum_map_fst]
    · simp [roundSeq_enterOks, finishUpR_enterOks]
    · simp [finishUpR_done]
  · right
    simp only [doRound]
    rw [hq]
    refine ⟨?_, ?_, ?_⟩
    · simp [roundSeq_exitIdxs, finishUpR_exitIdxs, hfst, List.map_reverse,
        enum_map_fst]
    · simp [roundSeq_enterOks, finishUpR_enterOks]
    · simp [finishUpR_done]

/-- A stack suspended with `N` resources. -/
def Susp (N : Nat) (st : StackSt σ V S E) : Prop :=
  ∃ cs, (st = .suspFirst cs ∨ st = .suspLoop cs) ∧ cs.length = N

/-- The shape of `doRound`'s outcome needed for the suspension invariant. -/
theorem doRound_goal
    (xf : Ctx σ V S E → Option (Exc E) → ExitRes E × Ctx σ V S E)
    (cs : List (Ctx σ V S E)) (s : S) :
    (exitIdxs (doRound xf cs s).1 = [] ∧ enterOks (doRound xf cs s).1 = []
      ∧ (∃ vs, (doRound xf cs s).2.1 = .yielded vs)
      ∧ Susp cs.length (doRound xf cs s).2.2)
    ∨ (exitIdxs (doRound xf cs s).1 = (List.range cs.length).reverse
      ∧ enterOks (doRound xf cs s).1 = []
      ∧ (doRound xf cs s).2.2 = .done) := by
  rcases doRound_spec xf cs s with ⟨h1, h2, h3, cs', h4, h5⟩ | h
  · exact Or.inl ⟨h1, h2, h3, cs', Or.inr h4, h5⟩
  · exact Or.inr h

theorem stackResume_spec [DecidableEq E] {N : Nat} {st : StackSt σ V S E}
    (ev : StackEv S E) (h : Susp N st) :
    (exitIdxs (stackResume st ev).1 = [] ∧ enterOks (stackResume st ev).1 = []
      ∧ (∃ vs, (stackResume st ev).2.1 = .yielded vs)
      ∧ Susp N (stackResume st ev).2.2)
    ∨ (exitIdxs (stackResume st ev).1 = (List.range N).reverse
      ∧ enterOks (stackResume st ev).1 = []
      ∧ (stackResume st ev).2.2 = .done) := by
  obtain ⟨cs, hst, hlen⟩ := h
  subst hlen
  have hfin : ∀ exc : Option (Exc E),
      exitIdxs (finishUp ctxExit cs exc).1 = (List.range cs.length).reverse
      ∧ enterOks (finishUp ctxExit cs exc).1 = []
      ∧ (finishUp ctxExit cs exc).2.2 = StackSt.done := fun exc =>
    ⟨finishUp_exitIdxs .., finishUpR_enterOks .., finishUpR_done ..⟩
  rcases hst with hst | hst <;> subst hst
  · cases ev with
    | send s =>
      cases cs with
      | nil => exact Or.inr (hfin none)
      | cons c rest => exact doRound_goal ctxExit (c :: rest) s
    | thrown e =>
      cases cs with
      | nil => exact Or.inr (hfin (some e))
      | cons c rest => exact Or.inr (hfin (some e))
  · cases ev with
    | send s => exact doRound_goal ctxExit cs s
    | thrown e => cases e <;> exact Or.inr (hfin _)

theorem stackClose_finishUp [DecidableEq E] (cs : List (Ctx σ V S E))
    (st : StackSt σ V S E) (exc : Option (Exc E))
    (hst : st = .suspFirst cs ∨ st = .suspLoop cs)
    (key : stackResume st (.thrown .genExit) = finishUp ctxExit cs exc) :
    (stackClose st).1 = (finishUp ctxExit cs exc).1
    ∧ (stackClose st).2.2 = .done := by
  rcases hq : (exitPass ctxExit (enum cs).reverse exc).2 with - | e
  · have hval : finishUp ctxExit cs exc =
        ((exitPass ctxExit (enum cs).reverse exc).1, .finished, .done) := by
      simp [finishUp, finishUpR, hq]
    rcases hst with h | h <;> subst h <;>
      simp [stackClose, key, hval]
  · have hval : finishUp ctxExit cs exc =
        ((exitPass ctxExit (enum cs).reverse exc).1, .raised (pep479 e), .done) := by
      simp [finishUp, finishUpR, hq]
    rcases hst with h | h <;> subst h <;> cases e <;>
      simp [stackClose, key, hval, pep479]

theorem stackClose_spec [DecidableEq E] {N : Nat} {st : StackSt σ V S E}
    (h : Susp N st) :
    exitIdxs (stackClose st).1 = (List.range N).reverse
    ∧ enterOks (stackClose st).1 = []
    ∧ (stackClose st).2.2 = .done := by
  obtain ⟨cs, hst, hlen⟩ := h
  subst hlen
  have key : stackResume st (.thrown .genExit) =
      finishUp ctxExit cs (some .genExit) := by
    rcases hst with h | h <;> subst h
    · cases cs <;> rfl
    · rfl
  obtain ⟨h1, h2⟩ := stackClose_finishUp cs st (some .genExit) hst key
  rw [h1]
  exact ⟨finishUp_exitIdxs .., finishUpR_enterOks .., h2⟩

theorem doCall_done [DecidableEq E] (c : Call S E) :
    (doCall (.done : StackSt σ V S E) c).1 = []
    ∧ (doCall (.done : StackSt σ V S E) c).2.2 = .done := by
  cases c <;> exact ⟨rfl, rfl⟩

theorem doCall_spec [DecidableEq E] {N : Nat} {st : StackSt σ V S E}
    (c : Call S E) (h : Susp N st) :
    (exitIdxs (doCall st c).1 = [] ∧ enterOks (doCall st c).1 = []
      ∧ Susp N (doCall st c).2.2)
    ∨ (exitIdxs (doCall st c).1 = (List.range N).reverse
      ∧ enterOks (doCall st c).1 = [] ∧ (doCall st c).2.2 = .done) := by
  cases c with
  | send s =>
    rcases hr : stackResume st (.send s) with ⟨tr, resp, st'⟩
    rcases stackResume_spec (.send s) h with ⟨h1, h2, ⟨vs, h3⟩, h4⟩ | ⟨h1, h2, h3⟩ <;>
      rw [hr] at h1 h2 <;> simp only at h1 h2
    · rw [hr] at h3 h4
      simp only at h3 h4
      subst h3
      exact Or.inl ⟨by simp [doCall, hr, h1], by simp [doCall, hr, h2],
        by simpa [doCall, hr] using h4⟩
    · rw [hr] at h3
      simp only at h3
      cases resp <;>
        exact Or.inr ⟨by simp [doCall, hr, h1], by simp [doCall, hr, h2],
          by simp [doCall, hr, h3]⟩
  | throw e =>
    rcases hr : stackResume st (.thrown e) with ⟨tr, resp, st'⟩
    rcases stackResume_spec (.thrown e) h with ⟨h1, h2, ⟨vs, h3⟩, h4⟩ | ⟨h1, h2, h3⟩ <;>
      rw [hr] at h1 h2 <;> simp only at h1 h2
    · rw [hr] at h3 h4
      simp only at h3 h4
      subst h3
      exact Or.inl ⟨by simp [doCall, hr, h1], by simp [doCall, hr, h2],
        by simpa [doCall, hr] using h4⟩
    · rw [hr] at h3
      simp only at h3
      cases resp <;>
        exact Or.inr ⟨by simp [doCall, hr, h1], by simp [doCall, hr, h2],
          by simp [doCall, hr, h3]⟩
  | close =>
    obtain ⟨h1, h2, h3⟩ := stackClose_spec h
    exact Or.inr ⟨by simpa [doCall] using h1, by simpa [doCall] using h2,
      by simpa [doCall] using h3⟩

theorem doCall_close_done [DecidableEq E] (st : StackSt σ V S E) :
    (doCall st .close).2.2 = .done := by
  cases st with
  | done => rfl
  | suspFirst cs =>
    have h := (stackClose_spec (show Susp cs.length (StackSt.suspFirst cs)
      from ⟨cs, Or.inl rfl, rfl⟩)).2.2
    simpa [doCall] using h
  | suspLoop cs =>
    have h := (stackClose_spec (show Susp cs.length (StackSt.suspLoop cs)
      from ⟨cs, Or.inr rfl, rfl⟩)).2.2
    simpa [doCall] using h

/-!
## Lemmas about whole runs
-/

theorem runCalls_append [DecidableEq E] (st : StackSt σ V S E)
    (l1 l2 : List (Call S E)) :
    runCalls st (l1 ++ l2) =
      ((runCalls st l1).1 ++ (runCalls (runCalls st l1).2 l2).1,
        (runCalls (runCalls st l1).2 l2).2) := by
  induction l1 generalizing st with
  | nil => simp [runCalls]
  | cons c rest ih => simp [runCalls, ih]

theorem runCalls_done [DecidableEq E] (l : List (Call S E)) :
    (runCalls (.done : StackSt σ V S E) l).2 = .done
    ∧ ∀ p ∈ (runCalls (.done : StackSt σ V S E) l).1, p.1 = [] := by
  induction l with
  | nil => exact ⟨rfl, by simp [runCalls]⟩
  | cons c rest ih =>
    obtain ⟨hd1, hd2⟩ := doCall_done (σ := σ) (V := V) (S := S) (E := E) c
    constructor
    · simp [runCalls, hd2, ih.1]
    · intro p hp
      simp only [runCalls] at hp
      rcases List.mem_cons.mp hp with hp | hp
      · rw [hp]
        exact hd1
      · rw [hd2] at hp
        exact ih.2 p hp

theorem flatten_of_all_nil {α : Type} {l : List (List α)}
    (h : ∀ x ∈ l, x = []) : l.flatten = [] := by
  induction l with
  | nil => rfl
  | cons a rest ih =>
    rw [List.flatten_cons, h a (by simp), ih fun x hx => h x (by simp [hx])]
    rfl

/-- Invariant propagation over a caller script: either the stack is still
suspended and no finalize call has happened, or it is done and the finalize
calls are exactly the `N` resources in strict reverse order. -/
theorem runCalls_inv [DecidableEq E] {N : Nat} (script : List (Call S E))
    {st : StackSt σ V S E} (h : Susp N st) :
    (exitIdxs ((runCalls st script).1.map Prod.fst).flatten = []
      ∧ enterOks ((runCalls st script).1.map Prod.fst).flatten = []
      ∧ Susp N (runCalls st script).2)
    ∨ (exitIdxs ((runCalls st script).1.map Prod.fst).flatten
        = (List.range N).reverse
      ∧ enterOks ((runCalls st script).1.map Prod.fst).flatten = []
      ∧ (runCalls st script).2 = .done) := by
  induction script generalizing st with
  | nil => exact Or.inl ⟨rfl, rfl, h⟩
  | cons c rest ih =>
    rcases doCall_spec c h with ⟨h1, h2, h3⟩ | ⟨h1, h2, h3⟩
    · rcases ih h3 with ⟨i1, i2, i3⟩ | ⟨i1, i2, i3⟩
      · exact Or.inl ⟨by simp [runCalls, h1, i1], by simp [runCalls, h2, i2],
          by simpa [runCalls] using i3⟩
      · exact Or.inr ⟨by simp [runCalls, h1, i1], by simp [runCalls, h2, i2],
          by simpa [runCalls] using i3⟩
    · obtain ⟨hr1, hr2⟩ := runCalls_done (σ := σ) (V := V) (S := S) (E := E) rest
    -- after the stack is done, the remaining calls touch no resources
      have hnil : ((runCalls (doCall st c).2.2 rest).1.map Prod.fst).flatten
          = ([] : List (Ev V S E)) := by
        rw [h3]
        exact flatten_of_all_nil (by
          intro x hx
          obtain ⟨p, hp, hpx⟩ := List.mem_map.mp hx
          rw [← hpx]
          exact hr2 p hp)
      refine Or.inr ⟨?_, ?_, ?_⟩
      · simp [runCalls, h1, hnil]
      · simp [runCalls, h2, hnil]
      · simp [runCalls, h3, hr1]

theorem stackOpen_spec [DecidableEq E] (gens : List (Gen σ V S E)) :
    (enterOks (stackOpen gens).1 = List.range gens.length
      ∧ exitIdxs (stackOpen gens).1 = []
      ∧ Susp gens.length (stackOpen gens).2.2)
    ∨ (∃ k, enterOks (stackOpen gens).1 = List.range k
      ∧ exitIdxs (stackOpen gens).1 = (List.range k).reverse
      ∧ (stackOpen gens).2.2 = .done) := by
  rcases hq : (enterAll 0 (gens.map fun g =>
      ((g, GenState.run g.init) : Ctx σ V S E))).2 with ⟨ys, cs'⟩ | ⟨e, cs'⟩
  · obtain ⟨e1, e2, e3, -, -⟩ := enterAll_ok_spec hq
    left
    simp only [stackOpen]
    rw [hq]
    refine ⟨?_, ?_, cs', Or.inl rfl, by simpa using e3⟩
    · rw [e1]
      simp [List.range_eq_range']
    · exact e2
  · obtain ⟨e1, e2, e3⟩ := enterAll_fail_spec hq
    right
    refine ⟨cs'.length, ?_⟩
    rcases hr : (exitPass ctxExit (enum cs').reverse (some e)).2 with - | e' <;>
    · simp only [stackOpen, hq, hr]
      refine ⟨?_, ?_, trivial⟩
      · rw [enterOks_append, e1, exitPass_enterOks]
        simp [List.range_eq_range']
      · rw [exitIdxs_append, e2, exitPass_idxs, List.map_reverse, enum_map_fst]
        simp

theorem doCall_raised_done [DecidableEq E] {N : Nat} {st : StackSt σ V S E}
    {c : Call S E} {e : Exc E} (hst : Susp N st ∨ st = .done)
    (h : (doCall st c).2.1 = .raised e) : (doCall st c).2.2 = .done := by
  rcases hst with hst | hst
  · cases c with
    | send s =>
      rcases hr : stackResume st (.send s) with ⟨tr, resp, st'⟩
      rcases stackResume_spec (.send s) hst with ⟨-, -, ⟨vs, h3⟩, -⟩ | ⟨-, -, h3⟩ <;>
        rw [hr] at h3 <;> simp only at h3
      · subst h3
        simp [doCall, hr] at h
      · cases resp <;> simp [doCall, hr, h3]
    | throw e2 =>
      rcases hr : stackResume st (.thrown e2) with ⟨tr, resp, st'⟩
      rcases stackResume_spec (.thrown e2) hst with ⟨-, -, ⟨vs, h3⟩, -⟩ | ⟨-, -, h3⟩ <;>
        rw [hr] at h3 <;> simp only at h3
      · subst h3
        simp [doCall, hr] at h
      · cases resp <;> simp [doCall, hr, h3]
    | close => simp [doCall] at h
  · subst hst
    cases c with
    | send s => simp [doCall, stackResume] at h
    | throw e2 => rfl
    | close => simp [doCall, stackClose] at h

theorem doCall_fin_done [DecidableEq E] {N : Nat} {st : StackSt σ V S E}
    {c : Call S E} (hst : Susp N st ∨ st = .done)
    (h : (doCall st c).2.1 = CallRes.stop
      ∨ ∃ e, (doCall st c).2.1 = CallRes.raised e) :
    (doCall st c).2.2 = .done := by
  rcases hst with hst | hst
  · cases c with
    | send s =>
      rcases hr : stackResume st (.send s) with ⟨tr, resp, st'⟩
      rcases stackResume_spec (.send s) hst with ⟨-, -, ⟨vs, h3⟩, -⟩ | ⟨-, -, h3⟩ <;>
        rw [hr] at h3 <;> simp only at h3
      · subst h3
        simp [doCall, hr] at h
      · cases resp <;> simp [doCall, hr, h3]
    | throw e2 =>
      rcases hr : stackResume st (.thrown e2) with ⟨tr, resp, st'⟩
      rcases stackResume_spec (.thrown e2) hst with ⟨-, -, ⟨vs, h3⟩, -⟩ | ⟨-, -, h3⟩ <;>
        rw [hr] at h3 <;> simp only at h3
      · subst h3
        simp [doCall, hr] at h
      · cases resp <;> simp [doCall, hr, h3]
    | close => simp [doCall] at h
  · subst hst
    cases c <;> rfl

theorem doCall_state [DecidableEq E] {N : Nat} {st : StackSt σ V S E}
    (c : Call S E) (hst : Susp N st ∨ st = .done) :
    Susp N (doCall st c).2.2 ∨ (doCall st c).2.2 = .done := by
  rcases hst with hst | hst
  · rcases doCall_spec c hst with ⟨-, -, h⟩ | ⟨-, -, h⟩
    · exact Or.inl h
    · exact Or.inr h
  · subst hst
    exact Or.inr (doCall_done c).2

theorem runCalls_raised_done [DecidableEq E] {N : Nat} {st : StackSt σ V S E}
    (l : List (Call S E)) (hst : Susp N st ∨ st = .done)
    (h : ∃ p ∈ (runCalls st l).1, ∃ e, p.2 = CallRes.raised e) :
    (runCalls st l).2 = .done := by
  induction l generalizing st with
  | nil => simp [runCalls] at h
  | cons c rest ih =>
    obtain ⟨p, hp, e, hpe⟩ := h
    simp only [runCalls] at hp ⊢
    rcases List.mem_cons.mp hp with hp | hp
    · have hres : (doCall st c).2.1 = CallRes.raised e := by
        rw [hp] at hpe
        exact hpe
      have hdone := doCall_raised_done hst hres
      rw [hdone]
      exact (runCalls_done rest).1
    · exact ih (doCall_state c hst) ⟨p, hp, e, hpe⟩

theorem runCalls_fin_done [DecidableEq E] {N : Nat} {st : StackSt σ V S E}
    (l : List (Call S E)) (hst : Susp N st ∨ st = .done)
    (h : ∃ p ∈ (runCalls st l).1,
      p.2 = CallRes.stop ∨ ∃ e, p.2 = CallRes.raised e) :
    (runCalls st l).2 = .done := by
  induction l generalizing st with
  | nil => simp [runCalls] at h
  | cons c rest ih =>
    obtain ⟨p, hp, hpe⟩ := h
    simp only [runCalls] at hp ⊢
    rcases List.mem_cons.mp hp with hp | hp
    · have hres : (doCall st c).2.1 = CallRes.stop
          ∨ ∃ e, (doCall st c).2.1 = CallRes.raised e := by
        rw [hp] at hpe
        exact hpe
      have hdone := doCall_fin_done hst hres
      rw [hdone]
      exact (runCalls_done rest).1
    · exact ih (doCall_state c hst) ⟨p, hp, hpe⟩

theorem runStack_trace_eq [DecidableEq E] (gens : List (Gen σ V S E))
    (script : List (Call S E)) :
    (runStack gens script).trace = (stackOpen gens).1
      ++ ((runCalls (stackOpen gens).2.2 script).1.map Prod.fst).flatten := rfl

theorem runStack_calls_eq [DecidableEq E] (gens : List (Gen σ V S E))
    (script : List (Call S E)) :
    (runStack gens script).calls = (runCalls (stackOpen gens).2.2 script).1 := rfl

/-- A run that is terminated by an explicit `close()` activates some prefix
of resources (indices `0..k-1` in order) and finalizes exactly those, in
strict reverse order. -/
theorem runStack_closed_exits [DecidableEq E] (gens : List (Gen σ V S E))
    (script : List (Call S E)) :
    ∃ k, exitIdxs (runStack gens (script ++ [Call.close])).trace
        = (List.range k).reverse
      ∧ enterOks (runStack gens (script ++ [Call.close])).trace
        = List.range k := by
  rcases stackOpen_spec gens with ⟨h1, h2, h3⟩ | ⟨k, h1, h2, h3⟩
  · refine ⟨gens.length, ?_, ?_⟩ <;>
    · rw [runStack_trace_eq]
      rcases runCalls_inv (script ++ [Call.close]) h3 with ⟨i1, i2, i3⟩ | ⟨i1, i2, i3⟩
      · exfalso
        have hfin : (runCalls (stackOpen gens).2.2 (script ++ [Call.close])).2
            = .done := by
          rw [runCalls_append]
          simp only [runCalls]
          exact doCall_close_done _
        rw [hfin] at i3
        obtain ⟨cs, hcs, -⟩ := i3
        rcases hcs with hcs | hcs <;> simp at hcs
      · simp [h1, h2, i1, i2]
  · obtain ⟨hr1, hr2⟩ := runCalls_done
      (σ := σ) (V := V) (S := S) (E := E) (script ++ [Call.close])
    have hnil : ((runCalls (stackOpen gens).2.2 (script ++ [Call.close])).1.map
        Prod.fst).flatten = ([] : List (Ev V S E)) := by
      rw [h3]
      exact flatten_of_all_nil (by
        intro x hx
        obtain ⟨p, hp, hpx⟩ := List.mem_map.mp hx
        rw [← hpx]
        exact hr2 p hp)
    exact ⟨k, by simp [runStack_trace_eq, hnil, h1, h2]⟩

/-!
## Lemmas about the asynchronous coordinator
-/

theorem gatherSteps_fst (l : List (Nat × Ctx σ V S E)) (ev : GenEvent S E) :
    (gatherSteps l ev).map Prod.fst = l.map Prod.fst := by
  simp [gatherSteps, List.map_map, Function.comp]

theorem gatherSteps_rcs_fst (l : List (Nat × Ctx σ V S E)) (ev : GenEvent S E) :
    ((gatherSteps l ev).map fun p => (p.1, p.2.2)).map Prod.fst
      = l.map Prod.fst := by
  simp [gatherSteps, List.map_map, Function.comp]

theorem gatherSteps_length (l : List (Nat × Ctx σ V S E)) (ev : GenEvent S E) :
    (gatherSteps l ev).length = l.length := by
  simp [gatherSteps]

theorem exitIdxs_map_send (s : S)
    (stepL : List (Nat × (PResp V E × Ctx σ V S E))) :
    exitIdxs (stepL.map fun p => Ev.send p.1 s p.2.1) = [] := by
  induction stepL with
  | nil => rfl
  | cons p rest ih => simp [ih]

theorem enterOks_map_send (s : S)
    (stepL : List (Nat × (PResp V E × Ctx σ V S E))) :
    enterOks (stepL.map fun p => Ev.send p.1 s p.2.1) = [] := by
  induction stepL with
  | nil => rfl
  | cons p rest ih => simp [ih]

theorem exitIdxs_map_enter
    (stepL : List (Nat × (PResp V E × Ctx σ V S E))) :
    exitIdxs (stepL.map fun p => (Ev.enter p.1 p.2.1 : Ev V S E)) = [] := by
  induction stepL with
  | nil => rfl
  | cons p rest ih => simp [ih]

@[simp] theorem isYieldResp_yielded (v : V) :
    isYieldResp (PResp.yielded (E := E) v) = true := rfl

@[simp] theorem isYieldResp_finished :
    isYieldResp (PResp.finished : PResp V E) = false := rfl

@[simp] theorem isYieldResp_raised (e : Exc E) :
    isYieldResp (PResp.raised (V := V) e) = false := rfl

theorem enterOks_map_enter
    (stepL : List (Nat × (PResp V E × Ctx σ V S E))) :
    enterOks (stepL.map fun p => (Ev.enter p.1 p.2.1 : Ev V S E))
      = (stepL.filter fun p => isYieldResp p.2.1).map Prod.fst := by
  induction stepL with
  | nil => rfl
  | cons p rest ih =>
    obtain ⟨i, r, c⟩ := p
    cases r <;> simp [List.filter_cons, ih]

theorem firstBad_none_all
    {stepL : List (Nat × (PResp V E × Ctx σ V S E))}
    (h : firstBad stepL = none) : ∀ p ∈ stepL, isYieldResp p.2.1 = true := by
  induction stepL with
  | nil => simp
  | cons p rest ih =>
    obtain ⟨i, r, c⟩ := p
    cases r with
    | yielded v =>
      intro q hq
      rcases List.mem_cons.mp hq with hq | hq
      · subst hq
        rfl
      · exact ih (by simpa [firstBad] using h) q hq
    | finished => simp [firstBad] at h
    | raised e => simp [firstBad] at h

theorem doRoundA_goal [DecidableEq E] (seq : Bool) (cs : List (Ctx σ V S E))
    (s : S) :
    (exitIdxs (doRoundA seq cs s).1 = [] ∧ enterOks (doRoundA seq cs s).1 = []
      ∧ (∃ vs, (doRoundA seq cs s).2.1 = .yielded vs)
      ∧ Susp cs.length (doRoundA seq cs s).2.2)
    ∨ (exitIdxs (doRoundA seq cs s).1 = (List.range cs.length).reverse
      ∧ enterOks (doRoundA seq cs s).1 = []
      ∧ (doRoundA seq cs s).2.2 = .done) := by
  cases seq with
  | true => exact doRound_goal actxExit cs s
  | false =>
    have hfst := gatherSteps_rcs_fst (enum cs).reverse
      ((GenEvent.send s : GenEvent S E))
    have hlen : (gatherSteps (enum cs).reverse
        ((GenEvent.send s : GenEvent S E))).length = cs.length := by
      rw [gatherSteps_length]
      simp [enum, enumFrom_length]
    rcases hb : firstBad (gatherSteps (enum cs).reverse (.send s)) with - | bad
    · left
      simp only [doRoundA]
      rw [hb]
      refine ⟨by simp [exitIdxs_map_send], by simp [enterOks_map_send],
        ⟨_, rfl⟩, _, Or.inr rfl, ?_⟩
      simp [hlen]
    · right
      cases bad <;>
      · simp only [doRoundA]
        rw [hb]
        refine ⟨?_, ?_, ?_⟩
        · rw [exitIdxs_append, exitIdxs_map_send, finishUpR_exitIdxs, hfst,
            List.map_reverse, enum_map_fst]
          simp
        · rw [enterOks_append, enterOks_map_send, finishUpR_enterOks]
          rfl
        · simp [finishUpR_done]

theorem astackResume_spec [DecidableEq E] (seq : Bool) {N : Nat}
    {st : StackSt σ V S E} (ev : StackEv S E) (h : Susp N st) :
    (exitIdxs (astackResume seq st ev).1 = []
      ∧ enterOks (astackResume seq st ev).1 = []
      ∧ (∃ vs, (astackResume seq st ev).2.1 = .yielded vs)
      ∧ Susp N (astackResume seq st ev).2.2)
    ∨ (exitIdxs (astackResume seq st ev).1 = (List.range N).reverse
      ∧ enterOks (astackResume seq st ev).1 = []
      ∧ (astackResume seq st ev).2.2 = .done) := by
  obtain ⟨cs, hst, hlen⟩ := h
  subst hlen
  have hfin : ∀ exc : Option (Exc E),
      exitIdxs (finishUp actxExit cs exc).1 = (List.range cs.length).reverse
      ∧ enterOks (finishUp actxExit cs exc).1 = []
      ∧ (finishUp actxExit cs exc).2.2 = StackSt.done := fun exc =>
    ⟨finishUp_exitIdxs .., finishUpR_enterOks .., finishUpR_done ..⟩
  rcases hst with hst | hst <;> subst hst
  · cases ev with
    | send s =>
      cases cs with
      | nil => exact Or.inr (hfin none)
      | cons c rest => exact doRoundA_goal seq (c :: rest) s
    | thrown e =>
      cases cs with
      | nil => exact Or.inr (hfin (some e))
      | cons c rest => exact Or.inr (hfin (some e))
  · cases ev with
    | send s => exact doRoundA_goal seq cs s
    | thrown e => cases e <;> exact Or.inr (hfin _)

theorem astackClose_finishUp [DecidableEq E] (seq : Bool)
    (cs : List (Ctx σ V S E)) (st : StackSt σ V S E) (exc : Option (Exc E))
    (hst : st = .suspFirst cs ∨ st = .suspLoop cs)
    (key : astackResume seq st (.thrown .genExit) = finishUp actxExit cs exc) :
    (astackClose seq st).1 = (finishUp actxExit cs exc).1
    ∧ (astackClose seq st).2.2 = .done := by
  rcases hq : (exitPass actxExit (enum cs).reverse exc).2 with - | e
  · have hval : finishUp actxExit cs exc =
        ((exitPass actxExit (enum cs).reverse exc).1, .finished, .done) := by
      simp [finishUp, finishUpR, hq]
    rcases hst with h | h <;> subst h <;>
      simp [astackClose, key, hval]
  · have hval : finishUp actxExit cs exc =
        ((exitPass actxExit (enum cs).reverse exc).1, .raised (pep479 e), .done) := by
      simp [finishUp, finishUpR, hq]
    rcases hst with h | h <;> subst h <;> cases e <;>
      simp [astackClose, key, hval, pep479]

theorem astackClose_spec [DecidableEq E] (seq : Bool) {N : Nat}
    {st : StackSt σ V S E} (h : Susp N st) :
    exitIdxs (astackClose seq st).1 = (List.range N).reverse
    ∧ enterOks (astackClose seq st).1 = []
    ∧ (astackClose seq st).2.2 = .done := by
  obtain ⟨cs, hst, hlen⟩ := h
  subst hlen
  have key : astackResume seq st (.thrown .genExit) =
      finishUp actxExit cs (some .genExit) := by
    rcases hst with h | h <;> subst h
    · cases cs <;> rfl
    · rfl
  obtain ⟨h1, h2⟩ := astackClose_finishUp seq cs st (some .genExit) hst key
  rw [h1]
  exact ⟨finishUp_exitIdxs .., finishUpR_enterOks .., h2⟩

theorem adoCall_done [DecidableEq E] (seq : Bool) (c : Call S E) :
    (adoCall seq (.done : StackSt σ V S E) c).1 = []
    ∧ (adoCall seq (.done : StackSt σ V S E) c).2.2 = .done := by
  cases c <;> exact ⟨rfl, rfl⟩

theorem adoCall_spec [DecidableEq E] (seq : Bool) {N : Nat}
    {st : StackSt σ V S E} (c : Call S E) (h : Susp N st) :
    (exitIdxs (adoCall seq st c).1 = [] ∧ enterOks (adoCall seq st c).1 = []
      ∧ Susp N (adoCall seq st c).2.2)
    ∨ (exitIdxs (adoCall seq st c).1 = (List.range N).reverse
      ∧ enterOks (adoCall seq st c).1 = []
      ∧ (adoCall seq st c).2.2 = .done) := by
  cases c with
  | send s =>
    rcases hr : astackResume seq st (.send s) with ⟨tr, resp, st'⟩
    rcases astackResume_spec seq (.send s) h with ⟨h1, h2, ⟨vs, h3⟩, h4⟩ | ⟨h1, h2, h3⟩ <;>
      rw [hr] at h1 h2 <;> simp only at h1 h2
    · rw [hr] at h3 h4
      simp only at h3 h4
      subst h3
      exact Or.inl ⟨by simp [adoCall, hr, h1], by simp [adoCall, hr, h2],
        by simpa [adoCall, hr] using h4⟩
    · rw [hr] at h3
      simp only at h3
      cases resp <;>
        exact Or.inr ⟨by simp [adoCall, hr, h1], by simp [adoCall, hr, h2],
          by simp [adoCall, hr, h3]⟩
  | throw e =>
    rcases hr : astackResume seq st (.thrown e) with ⟨tr, resp, st'⟩
    rcases astackResume_spec seq (.thrown e) h with ⟨h1, h2, ⟨vs, h3⟩, h4⟩ | ⟨h1, h2, h3⟩ <;>
      rw [hr] at h1 h2 <;> simp only at h1 h2
    · rw [hr] at h3 h4
      simp only at h3 h4
      subst h3
      exact Or.inl ⟨by simp [adoCall, hr, h1], by simp [adoCall, hr, h2],
        by simpa [adoCall, hr] using h4⟩
    · rw [hr] at h3
      simp only at h3
      cases resp <;>
        exact Or.inr ⟨by simp [adoCall, hr, h1], by simp [adoCall, hr, h2],
          by simp [adoCall, hr, h3]⟩
  | close =>
    obtain ⟨h1, h2, h3⟩ := astackClose_spec seq h
    exact Or.inr ⟨by simpa [adoCall] using h1, by simpa [adoCall] using h2,
      by simpa [adoCall] using h3⟩

theorem adoCall_close_done [DecidableEq E] (seq : Bool)
    (st : StackSt σ V S E) : (adoCall seq st .close).2.2 = .done := by
  cases st with
  | done => rfl
  | suspFirst cs =>
    have h := (astackClose_spec seq (show Susp cs.length
      (StackSt.suspFirst cs) from ⟨cs, Or.inl rfl, rfl⟩)).2.2
    simpa [adoCall] using h
  | suspLoop cs =>
    have h := (astackClose_spec seq (show Susp cs.length
      (StackSt.suspLoop cs) from ⟨cs, Or.inr rfl, rfl⟩)).2.2
    simpa [adoCall] using h

theorem arunCalls_append [DecidableEq E] (seq : Bool) (st : StackSt σ V S E)
    (l1 l2 : List (Call S E)) :
    arunCalls seq st (l1 ++ l2) =
      ((arunCalls seq st l1).1 ++ (arunCalls seq (arunCalls seq st l1).2 l2).1,
        (arunCalls seq (arunCalls seq st l1).2 l2).2) := by
  induction l1 generalizing st with
  | nil => simp [arunCalls]
  | cons c rest ih => simp [arunCalls, ih]

theorem arunCalls_done [DecidableEq E] (seq : Bool) (l : List (Call S E)) :
    (arunCalls seq (.done : StackSt σ V S E) l).2 = .done
    ∧ ∀ p ∈ (arunCalls seq (.done : StackSt σ V S E) l).1, p.1 = [] := by
  induction l with
  | nil => exact ⟨rfl, by simp [arunCalls]⟩
  | cons c rest ih =>
    obtain ⟨hd1, hd2⟩ := adoCall_done (σ := σ) (V := V) (S := S) (E := E) seq c
    constructor
    · simp [arunCalls, hd2, ih.1]
    · intro p hp
      simp only [arunCalls] at hp
      rcases List.mem_cons.mp hp with hp | hp
      · rw [hp]
        exact hd1
      · rw [hd2] at hp
        exact ih.2 p hp

theorem arunCalls_inv [DecidableEq E] (seq : Bool) {N : Nat}
    (script : List (Call S E)) {st : StackSt σ V S E} (h : Susp N st) :
    (exitIdxs ((arunCalls seq st script).1.map Prod.fst).flatten = []
      ∧ enterOks ((arunCalls seq st script).1.map Prod.fst).flatten = []
      ∧ Susp N (arunCalls seq st script).2)
    ∨ (exitIdxs ((arunCalls seq st script).1.map Prod.fst).flatten
        = (List.range N).reverse
      ∧ enterOks ((arunCalls seq st script).1.map Prod.fst).flatten = []
      ∧ (arunCalls seq st script).2 = .done) := by
  induction script generalizing st with
  | nil => exact Or.inl ⟨rfl, rfl, h⟩
  | cons c rest ih =>
    rcases adoCall_spec seq c h with ⟨h1, h2, h3⟩ | ⟨h1, h2, h3⟩
    · rcases ih h3 with ⟨i1, i2, i3⟩ | ⟨i1, i2, i3⟩
      · exact Or.inl ⟨by simp [arunCalls, h1, i1], by simp [arunCalls, h2, i2],
          by simpa [arunCalls] using i3⟩
      · exact Or.inr ⟨by simp [arunCalls, h1, i1], by simp [arunCalls, h2, i2],
          by simpa [arunCalls] using i3⟩
    · obtain ⟨hr1, hr2⟩ := arunCalls_done
        (σ := σ) (V := V) (S := S) (E := E) seq rest
      have hnil : ((arunCalls seq (adoCall seq st c).2.2 rest).1.map
          Prod.fst).flatten = ([] : List (Ev V S E)) := by
        rw [h3]
        exact flatten_of_all_nil (by
          intro x hx
          obtain ⟨p, hp, hpx⟩ := List.mem_map.mp hx
          rw [← hpx]
          exact hr2 p hp)
      refine Or.inr ⟨?_, ?_, ?_⟩
      · simp [arunCalls, h1, hnil]
      · simp [arunCalls, h2, hnil]
      · simp [arunCalls, h3, hr1]

theorem astackOpen_spec [DecidableEq E] (seq : Bool)
    (gens : List (Gen σ V S E)) :
    (enterOks (astackOpen seq gens).1 = List.range gens.length
      ∧ exitIdxs (astackOpen seq gens).1 = []
      ∧ Susp gens.length (astackOpen seq gens).2.2)
    ∨ (exitIdxs (astackOpen seq gens).1
        = (enterOks (astackOpen seq gens).1).reverse
      ∧ List.Pairwise (· < ·) (enterOks (astackOpen seq gens).1)
      ∧ (astackOpen seq gens).2.2 = .done) := by
  cases seq with
  | true =>
    rcases hq : (enterAll 0 (gens.map fun g =>
        ((g, GenState.run g.init) : Ctx σ V S E))).2 with ⟨ys, cs'⟩ | ⟨e, cs'⟩
    · obtain ⟨e1, e2, e3, -, -⟩ := enterAll_ok_spec hq
      left
      simp only [astackOpen]
      rw [hq]
      refine ⟨?_, e2, cs', Or.inl rfl, by simpa using e3⟩
      rw [e1]
      simp [List.range_eq_range']
    · obtain ⟨e1, e2, e3⟩ := enterAll_fail_spec hq
      right
      rcases hr : (exitPass actxExit (enum cs').reverse (some e)).2 with - | e' <;>
      · simp only [astackOpen, hq, hr]
        refine ⟨?_, ?_, trivial⟩
        · rw [enterOks_append, e1, exitPass_enterOks, exitIdxs_append, e2,
            exitPass_idxs, List.map_reverse, enum_map_fst]
          simp [List.range_eq_range']
        · rw [enterOks_append, e1, exitPass_enterOks]
          simpa [List.range_eq_range'] using List.pairwise_lt_range cs'.length
  | false =>
    have hfst : (gatherSteps (enum (gens.map fun g =>
        ((g, GenState.run g.init) : Ctx σ V S E)))
          ((GenEvent.nxt : GenEvent S E))).map Prod.fst
        = List.range gens.length := by
      rw [gatherSteps_fst, enum_map_fst]
      simp
    have hlen : (gatherSteps (enum (gens.map fun g =>
        ((g, GenState.run g.init) : Ctx σ V S E)))
          ((GenEvent.nxt : GenEvent S E))).length = gens.length := by
      rw [gatherSteps_length]
      simp [enum, enumFrom_length]
    rcases hb : firstBad (gatherSteps (enum (gens.map fun g =>
        ((g, GenState.run g.init) : Ctx σ V S E))) .nxt) with - | bad
    · left
      simp only [astackOpen]
      rw [hb]
      refine ⟨?_, by simp [exitIdxs_map_enter], _, Or.inl rfl, by simp [hlen]⟩
      rw [enterOks_map_enter, List.filter_eq_self.mpr (firstBad_none_all hb),
        hfst]
    · right
      have hsub : List.Sublist (((gatherSteps (enum (gens.map fun g =>
          ((g, GenState.run g.init) : Ctx σ V S E))) .nxt).filter
            (fun p => isYieldResp p.2.1)).map Prod.fst)
          (List.range gens.length) := by
        rw [← hfst]
        exact (List.filter_sublist _).map Prod.fst
      cases bad with
      | fin =>
        rcases hr : (exitPass actxExit (((gatherSteps (enum (gens.map fun g =>
            ((g, GenState.run g.init) : Ctx σ V S E))) .nxt).filter
              (fun p => isYieldResp p.2.1)).reverse.map fun p => (p.1, p.2.2))
            (some .rtDidNotYield)).2 with - | e' <;>
        · simp only [astackOpen, hb, hr]
          refine ⟨?_, ?_, trivial⟩
          · rw [exitIdxs_append, exitIdxs_map_enter, enterOks_append,
              enterOks_map_enter, exitPass_enterOks, exitPass_idxs,
              List.map_map, List.map_reverse]
            simp [Function.comp]
          · rw [enterOks_append, enterOks_map_enter, exitPass_enterOks]
            simpa using List.Pairwise.sublist hsub
              (List.pairwise_lt_range gens.length)
      | err e0 =>
        rcases hr : (exitPass actxExit (((gatherSteps (enum (gens.map fun g =>
            ((g, GenState.run g.init) : Ctx σ V S E))) .nxt).filter
              (fun p => isYieldResp p.2.1)).reverse.map fun p => (p.1, p.2.2))
            (some e0)).2 with - | e' <;>
        · simp only [astackOpen, hb, hr]
          refine ⟨?_, ?_, trivial⟩
          · rw [exitIdxs_append, exitIdxs_map_enter, enterOks_append,
              enterOks_map_enter, exitPass_enterOks, exitPass_idxs,
              List.map_map, List.map_reverse]
            simp [Function.comp]
          · rw [enterOks_append, enterOks_map_enter, exitPass_enterOks]
            simpa using List.Pairwise.sublist hsub
              (List.pairwise_lt_range gens.length)

theorem arunStack_trace_eq [DecidableEq E] (seq : Bool)
    (gens : List (Gen σ V S E)) (script : List (Call S E)) :
    (arunStack seq gens script).trace = (astackOpen seq gens).1
      ++ ((arunCalls seq (astackOpen seq gens).2.2 script).1.map
          Prod.fst).flatten := rfl

theorem arunStack_calls_eq [DecidableEq E] (seq : Bool)
    (gens : List (Gen σ V S E)) (script : List (Call S E)) :
    (arunStack seq gens script).calls
      = (arunCalls seq (astackOpen seq gens).2.2 script).1 := rfl

theorem adoCall_raised_done [DecidableEq E] (seq : Bool) {N : Nat}
    {st : StackSt σ V S E} {c : Call S E} {e : Exc E}
    (hst : Susp N st ∨ st = .done)
    (h : (adoCall seq st c).2.1 = .raised e) :
    (adoCall seq st c).2.2 = .done := by
  rcases hst with hst | hst
  · cases c with
    | send s =>
      rcases hr : astackResume seq st (.send s) with ⟨tr, resp, st'⟩
      rcases astackResume_spec seq (.send s) hst with
          ⟨-, -, ⟨vs, h3⟩, -⟩ | ⟨-, -, h3⟩ <;>
        rw [hr] at h3 <;> simp only at h3
      · subst h3
        simp [adoCall, hr] at h
      · cases resp <;> simp [adoCall, hr, h3]
    | throw e2 =>
      rcases hr : astackResume seq st (.thrown e2) with ⟨tr, resp, st'⟩
      rcases astackResume_spec seq (.thrown e2) hst with
          ⟨-, -, ⟨vs, h3⟩, -⟩ | ⟨-, -, h3⟩ <;>
        rw [hr] at h3 <;> simp only at h3
      · subst h3
        simp [adoCall, hr] at h
      · cases resp <;> simp [adoCall, hr, h3]
    | close =>
      have h2 := adoCall_close_done seq st
      exact h2
  · subst hst
    cases c with
    | send s => simp [adoCall, astackResume] at h
    | throw e2 => rfl
    | close => simp [adoCall, astackClose] at h

theorem adoCall_state [DecidableEq E] (seq : Bool) {N : Nat}
    {st : StackSt σ V S E} (c : Call S E)
    (hst : Susp N st ∨ st = .done) :
    Susp N (adoCall seq st c).2.2 ∨ (adoCall seq st c).2.2 = .done := by
  rcases hst with hst | hst
  · rcases adoCall_spec seq c hst with ⟨-, -, h⟩ | ⟨-, -, h⟩
    · exact Or.inl h
    · exact Or.inr h
  · subst hst
    exact Or.inr (adoCall_done seq c).2

theorem arunCalls_raised_done [DecidableEq E] (seq : Bool) {N : Nat}
    {st : StackSt σ V S E} (l : List (Call S E))
    (hst : Susp N st ∨ st = .done)
    (h : ∃ p ∈ (arunCalls seq st l).1, ∃ e, p.2 = CallRes.raised e) :
    (arunCalls seq st l).2 = .done := by
  induction l generalizing st with
  | nil => simp [arunCalls] at h
  | cons c rest ih =>
    obtain ⟨p, hp, e, hpe⟩ := h
    simp only [arunCalls] at hp ⊢
    rcases List.mem_cons.mp hp with hp | hp
    · have hres : (adoCall seq st c).2.1 = CallRes.raised e := by
        rw [hp] at hpe
        exact hpe
      have hdone := adoCall_raised_done seq hst hres
      rw [hdone]
      exact (arunCalls_done seq rest).1
    · exact ih (adoCall_state seq c hst) ⟨p, hp, e, hpe⟩

theorem arunStack_closed_spec [DecidableEq E] (seq : Bool)
    (gens : List (Gen σ V S E)) (script : List (Call S E)) :
    exitIdxs (arunStack seq gens (script ++ [Call.close])).trace
      = (enterOks (arunStack seq gens (script ++ [Call.close])).trace).reverse
    ∧ List.Pairwise (· > ·)
        (exitIdxs (arunStack seq gens (script ++ [Call.close])).trace) := by
  rcases astackOpen_spec seq gens with ⟨h1, h2, h3⟩ | ⟨h1, h2, h3⟩
  · rcases arunCalls_inv seq (script ++ [Call.close]) h3 with ⟨i1, i2, i3⟩ | ⟨i1, i2, i3⟩
    · exfalso
      have hfin : (arunCalls seq (astackOpen seq gens).2.2
          (script ++ [Call.close])).2 = .done := by
        rw [arunCalls_append]
        simp only [arunCalls]
        exact adoCall_close_done seq _
      rw [hfin] at i3
      obtain ⟨cs, hcs, -⟩ := i3
      rcases hcs with hcs | hcs <;> simp at hcs
    · constructor
      · rw [arunStack_trace_eq]
        simp [h1, h2, i1, i2]
      · rw [arunStack_trace_eq]
        simp only [exitIdxs_append, h2, i1, List.nil_append]
        exact List.pairwise_reverse.mpr (by simpa using List.pairwise_lt_range gens.length)
  · obtain ⟨hr1, hr2⟩ := arunCalls_done
      (σ := σ) (V := V) (S := S) (E := E) seq (script ++ [Call.close])
    have hnil : ((arunCalls seq (astackOpen seq gens).2.2
        (script ++ [Call.close])).1.map Prod.fst).flatten
        = ([] : List (Ev V S E)) := by
      rw [h3]
      exact flatten_of_all_nil (by
        intro x hx
        obtain ⟨p, hp, hpx⟩ := List.mem_map.mp hx
        rw [← hpx]
        exact hr2 p hp)
    constructor
    · rw [arunStack_trace_eq]
      simp [hnil, h1]
    · rw [arunStack_trace_eq]
      simp only [exitIdxs_append, h1, hnil, exitIdxs_nil, List.append_nil]
      exact List.pairwise_reverse.mpr (by simpa using h2)

/-- C7: in the asynchronous coordinator, whatever the concurrency mode,
every run terminated by `close()` issues its finalize (`__aexit__`) calls
in strictly decreasing resource-index order — exactly the reverse of the
successful activations — and the finalization pass is the same sequential
reverse loop for both modes (the model dispatches the `finally` loop one
resource at a time in both cases). -/
theorem claim_c7 [DecidableEq E] (seq : Bool) (gens : List (Gen σ V S E))
    (script : List (Call S E)) :
    exitIdxs (arunStack seq gens (script ++ [Call.close])).trace
      = (enterOks (arunStack seq gens (script ++ [Call.close])).trace).reverse
    ∧ List.Pairwise (· > ·)
        (exitIdxs (arunStack seq gens (script ++ [Call.close])).trace) :=
  arunStack_closed_spec seq gens script

/-- C1: for every list of resources and every way the interaction ends
(the caller script is arbitrary — sends, aborts, closes — and the run is
terminated by `close()`), the finalize calls — `__exit__` in the
synchronous coordinator and `__aexit__` in the asynchronous one, in
either concurrency mode — are exactly one per successfully activated
resource, in strict reverse order of activation; moreover, whenever a
call surfaces an error to the caller, no finalize call happens after it —
finalization has already completed before the error was raised. -/
theorem claim_c1 [DecidableEq E] (gens : List (Gen σ V S E))
    (script : List (Call S E)) :
    ((exitIdxs (runStack gens (script ++ [Call.close])).trace
      = (enterOks (runStack gens (script ++ [Call.close])).trace).reverse
     ∧ List.Pairwise (· > ·)
        (exitIdxs (runStack gens (script ++ [Call.close])).trace))
    ∧ ∀ l2 : List (Call S E),
        (∃ p ∈ (runStack gens script).calls, ∃ e, p.2 = CallRes.raised e) →
        exitIdxs (runStack gens (script ++ l2)).trace
          = exitIdxs (runStack gens script).trace)
    ∧ ∀ seq : Bool,
      (exitIdxs (arunStack seq gens (script ++ [Call.close])).trace
        = (enterOks (arunStack seq gens (script ++ [Call.close])).trace).reverse
       ∧ List.Pairwise (· > ·)
          (exitIdxs (arunStack seq gens (script ++ [Call.close])).trace))
      ∧ ∀ l2 : List (Call S E),
          (∃ p ∈ (arunStack seq gens script).calls,
            ∃ e, p.2 = CallRes.raised e) →
          exitIdxs (arunStack seq gens (script ++ l2)).trace
            = exitIdxs (arunStack seq gens script).trace := by
  refine ⟨⟨?_, ?_⟩, ?_⟩
  · obtain ⟨k, hx, he⟩ := runStack_closed_exits gens script
    refine ⟨by rw [hx, he], ?_⟩
    rw [hx]
    exact List.pairwise_reverse.mpr (by simpa using List.pairwise_lt_range k)
  · intro l2 hyp
    have hsd : Susp gens.length (stackOpen gens).2.2
        ∨ (stackOpen gens).2.2 = .done := by
      rcases stackOpen_spec gens with ⟨-, -, h⟩ | ⟨-, -, -, h⟩
      · exact Or.inl h
      · exact Or.inr h
    rw [runStack_calls_eq] at hyp
    have hdone := runCalls_raised_done script hsd hyp
    obtain ⟨hr1, hr2⟩ := runCalls_done (σ := σ) (V := V) (S := S) (E := E) l2
    have hnil : ((runCalls (runCalls (stackOpen gens).2.2 script).2 l2).1.map
        Prod.fst).flatten = ([] : List (Ev V S E)) := by
      rw [hdone]
      exact flatten_of_all_nil (by
        intro x hx
        obtain ⟨p, hp, hpx⟩ := List.mem_map.mp hx
        rw [← hpx]
        exact hr2 p hp)
    rw [runStack_trace_eq, runStack_trace_eq, runCalls_append]
    simp [hnil]
  · intro seq
    refine ⟨arunStack_closed_spec seq gens script, ?_⟩
    intro l2 hyp
    have hsd : Susp gens.length (astackOpen seq gens).2.2
        ∨ (astackOpen seq gens).2.2 = .done := by
      rcases astackOpen_spec seq gens with ⟨-, -, h⟩ | ⟨-, -, h⟩
      · exact Or.inl h
      · exact Or.inr h
    rw [arunStack_calls_eq] at hyp
    have hdone := arunCalls_raised_done seq script hsd hyp
    obtain ⟨hr1, hr2⟩ := arunCalls_done
      (σ := σ) (V := V) (S := S) (E := E) seq l2
    have hnil : ((arunCalls seq
        (arunCalls seq (astackOpen seq gens).2.2 script).2 l2).1.map
        Prod.fst).flatten = ([] : List (Ev V S E)) := by
      rw [hdone]
      exact flatten_of_all_nil (by
        intro x hx
        obtain ⟨p, hp, hpx⟩ := List.mem_map.mp hx
        rw [← hpx]
        exact hr2 p hp)
    rw [arunStack_trace_eq, arunStack_trace_eq, arunCalls_append]
    simp [hnil]

/-- C10: with an empty resource list, both the synchronous and the
asynchronous coordinator (in either concurrency mode) yield exactly one
combined checkpoint — the empty list — and exiting the stack afterwards
(by advancing once more or by closing) performs no resource calls and
raises no error. -/
theorem claim_c10 {σ V S E : Type} [DecidableEq E] (s : S) :
    ((stackOpen ([] : List (Gen σ V S E))).2.1 = .ok []
      ∧ (stackOpen ([] : List (Gen σ V S E))).1 = []
      ∧ doCall (stackOpen ([] : List (Gen σ V S E))).2.2 (Call.send s)
          = ([], .stop, .done)
      ∧ doCall (stackOpen ([] : List (Gen σ V S E))).2.2 Call.close
          = ([], .closed none, .done))
    ∧ ∀ seq : Bool,
      (astackOpen seq ([] : List (Gen σ V S E))).2.1 = .ok []
      ∧ (astackOpen seq ([] : List (Gen σ V S E))).1 = []
      ∧ adoCall seq (astackOpen seq ([] : List (Gen σ V S E))).2.2
          (Call.send s) = ([], .stop, .done)
      ∧ adoCall seq (astackOpen seq ([] : List (Gen σ V S E))).2.2
          Call.close = ([], .closed none, .done) := by
  refine ⟨⟨rfl, rfl, rfl, rfl⟩, fun seq => ?_⟩
  cases seq <;> exact ⟨rfl, rfl, rfl, rfl⟩

/-- C9: `close()` is idempotent. Whatever the resources and however the
caller drove the stack: after a run already closed once, a further
`close()` call performs zero resource calls and returns without error;
and after a run in which some call already completed the stack normally
(signalled StopIteration) or already surfaced an error, a `close()` call
likewise performs zero resource calls and returns without error. -/
theorem claim_c9 [DecidableEq E] (gens : List (Gen σ V S E))
    (script : List (Call S E)) :
    ((runStack gens (script ++ [Call.close, Call.close])).calls
      = (runStack gens (script ++ [Call.close])).calls
        ++ [([], CallRes.closed none)]
    ∧ (runStack gens (script ++ [Call.close, Call.close])).trace
      = (runStack gens (script ++ [Call.close])).trace)
    ∧ ((∃ p ∈ (runStack gens script).calls,
          p.2 = CallRes.stop ∨ ∃ e, p.2 = CallRes.raised e) →
        (runStack gens (script ++ [Call.close])).calls
          = (runStack gens script).calls ++ [([], CallRes.closed none)]
        ∧ (runStack gens (script ++ [Call.close])).trace
          = (runStack gens script).trace) := by
  have hsd : Susp gens.length (stackOpen gens).2.2
      ∨ (stackOpen gens).2.2 = .done := by
    rcases stackOpen_spec gens with ⟨-, -, h⟩ | ⟨-, -, -, h⟩
    · exact Or.inl h
    · exact Or.inr h
  constructor
  · have hsplit : script ++ [Call.close, Call.close]
        = (script ++ [Call.close]) ++ [Call.close] := by simp
    have hdone : (runCalls (stackOpen gens).2.2 (script ++ [Call.close])).2
        = .done := by
      rw [runCalls_append]
      simp only [runCalls]
      exact doCall_close_done _
    constructor
    · rw [runStack_calls_eq, runStack_calls_eq, hsplit, runCalls_append, hdone]
      rfl
    · rw [runStack_trace_eq, runStack_trace_eq, hsplit, runCalls_append, hdone]
      simp [runCalls, doCall, stackClose]
  · intro hfin
    rw [runStack_calls_eq] at hfin
    have hdone := runCalls_fin_done script hsd hfin
    constructor
    · rw [runStack_calls_eq, runStack_calls_eq, runCalls_append, hdone]
      rfl
    · rw [runStack_trace_eq, runStack_trace_eq, runCalls_append, hdone]
      simp [runCalls, doCall, stackClose]

/-- C6: during `__aexit__` on an already-exhausted async resource
(`athrow` returns without raising), the finalize-correction patch
(`AGenWrapForAexit.athrow`) re-raises exactly the original injected
exception, so the patched `__aexit__` lets the identical error continue
(`ok false`), whereas the unpatched `__aexit__` raises the generic
RuntimeError("generator didn't stop after athrow()"). -/
theorem claim_c6 {σ V S E : Type} [DecidableEq E] (g : Gen σ V S E)
    (val : Exc E) :
    patchedAthrow ((g, GenState.fin) : Ctx σ V S E) val
      = (.raised val, (g, .fin))
    ∧ actxExitPatched ((g, GenState.fin) : Ctx σ V S E) (some val)
      = (.ok false, (g, .fin))
    ∧ actxExit ((g, GenState.fin) : Ctx σ V S E) (some val)
      = (.raised .rtDidNotStopAfterThrow, (g, .fin)) := by
  refine ⟨rfl, ?_, rfl⟩
  simp [actxExitPatched, patchedAthrow, aGenAthrow, genStep]

/-!
## Concrete scenario resources
-/

/-- Scenario C3 resource A (index 0): checkpoint `"a0"`, then complete with
its result on the first resume. -/
def c3A : Gen Nat String String String :=
  ⟨0, fun s ev =>
    match s, ev with
    | 0, .nxt => .yielded "a0" 1
    | _, _ => .stopped⟩

/-- Scenario C3 resource B (index 1): checkpoints `"b0"` then `"b1"`, then
complete with its result. -/
def c3B : Gen Nat String String String :=
  ⟨0, fun s ev =>
    match s, ev with
    | 0, .nxt => .yielded "b0" 1
    | 1, .send _ => .yielded "b1" 2
    | _, _ => .stopped⟩

/-- C3 counterexample: in the N=2 scenario (A checkpoints "a0" and
completes on the first resume; B checkpoints "b0", "b1" and then
completes), `open` does return `["a0","b0"]`, but the first `advance`
already terminates the whole stack (it signals completion, not a new
combined checkpoint `["b1"]`), so no second `advance` can return an
`AllCompleted` result — the second call is a bare completion signal. -/
theorem claim_c3_counterexample :
    (runStack [c3A, c3B] [Call.send "x", Call.send "y"]).openRes
      = .ok ["a0", "b0"]
    ∧ (runStack [c3A, c3B] [Call.send "x", Call.send "y"]).calls.map Prod.snd
      = [CallRes.stop, CallRes.stop]
    ∧ (CallRes.stop : CallRes String String) ≠ CallRes.ys ["b1"] := by
  refine ⟨rfl, rfl, by simp⟩

/-- C3 (amended): `open` returns `["a0","b0"]`; the first `advance` sends
to B (which yields "b1") and then to A, which completes, aborting the
round; the stack immediately finalizes — B (`__exit__`) before A — and the
`advance` itself signals completion (StopIteration) with no values; a
second `advance` is a no-op completion signal performing no resource
calls. Results of completed resources are not collected. -/
theorem claim_c3_theorem :
    (runStack [c3A, c3B] [Call.send "x", Call.send "y"]).openRes
      = .ok ["a0", "b0"]
    ∧ (runStack [c3A, c3B] [Call.send "x", Call.send "y"]).calls
      = [([Ev.send 1 "x" (.yielded "b1"), Ev.send 0 "x" .finished,
           Ev.exitc 1 none (.ok false), Ev.exitc 0 none (.ok false)],
          CallRes.stop),
         ([], CallRes.stop)] :=
  ⟨rfl, rfl⟩

/-- Witness for the C9 theorem: the C3 resources driven by one `advance`
(which completes the whole stack and signals StopIteration); a close
after the two-close and the post-completion close are both clean no-ops. -/
theorem claim_c9_witness :
    ((runStack [c3A, c3B] ([Call.send "x"] ++ [Call.close, Call.close])).calls
      = (runStack [c3A, c3B] ([Call.send "x"] ++ [Call.close])).calls
        ++ [([], CallRes.closed none)]
    ∧ (runStack [c3A, c3B] ([Call.send "x"] ++ [Call.close, Call.close])).trace
      = (runStack [c3A, c3B] ([Call.send "x"] ++ [Call.close])).trace)
    ∧ ((runStack [c3A, c3B] ([Call.send "x"] ++ [Call.close])).calls
        = (runStack [c3A, c3B] [Call.send "x"]).calls
          ++ [([], CallRes.closed none)]
      ∧ (runStack [c3A, c3B] ([Call.send "x"] ++ [Call.close])).trace
        = (runStack [c3A, c3B] [Call.send "x"]).trace) :=
  ⟨(claim_c9 [c3A, c3B] [Call.send "x"]).1,
   (claim_c9 [c3A, c3B] [Call.send "x"]).2
     ⟨([Ev.send 1 "x" (.yielded "b1"), Ev.send 0 "x" .finished,
        Ev.exitc 1 none (.ok false), Ev.exitc 0 none (.ok false)],
       CallRes.stop),
      by decide, Or.inl rfl⟩⟩

/-- Scenario C8 resource A (index 0): checkpoint `"a0"`; suppress any
exception thrown into it (its generator returns from the `except` block). -/
def c8A : Gen Nat String String String :=
  ⟨0, fun s ev =>
    match s, ev with
    | 0, .nxt => .yielded "a0" 1
    | _, _ => .stopped⟩

/-- Scenario C8 resource B (index 1): fail during activation with the user
error `"E"`. -/
def c8B : Gen Nat String String String :=
  ⟨0, fun _ ev =>
    match ev with
    | .nxt => .raised (.user "E")
    | _ => .stopped⟩

/-- C8 counterexample: when B (index 1) fails activation with E and A
(index 0) suppresses E during its finalize, `open` still fails — but the
surfaced error is RuntimeError("generator didn't yield") produced by
`contextlib` (the stack generator returned without yielding after the
suppression), not the original error E as the claim states. -/
theorem claim_c8_counterexample :
    (stackOpen [c8A, c8B]).2.1 = .error .rtDidNotYield
    ∧ exitEvs (stackOpen [c8A, c8B]).1 = [(0, some (.user "E"), .ok true)]
    ∧ (Except.error Exc.rtDidNotYield : Except (Exc String) (List String))
      ≠ .error (.user "E") := by
  refine ⟨rfl, rfl, by simp⟩

/-- C8 (amended): for any two resources where A activates with a
checkpoint and suppresses every thrown error, and B fails during
activation with error `eB`, resource A receives exactly one finalize call
carrying `eB`; `open` still fails, but the surfaced error is
RuntimeError("generator didn't yield") (the generic `contextlib` error for
a context-manager generator that never yielded), not `eB` itself. If A did
not suppress, `eB` itself would surface (see the C2 theorem). -/
theorem claim_c8_theorem {σ V S E : Type} [DecidableEq E]
    (a b : Gen σ V S E) (v : V) (sa : σ) (eB : Exc E)
    (ha1 : a.step a.init .nxt = .yielded v sa)
    (ha2 : ∀ s x, a.step s (.thrown x) = .stopped)
    (hb : b.step b.init .nxt = .raised eB) (hnb : pep479 eB = eB) :
    (stackOpen [a, b]).2.1 = .error .rtDidNotYield
    ∧ exitEvs (stackOpen [a, b]).1 = [(0, some eB, .ok true)] := by
  simp [stackOpen, enterAll, genStep, ha1, ha2, hb, hnb, exitPass, ctxExit,
    enum, enumFrom, exitEvs]

/-- Witness for the C8 theorem at the concrete scenario resources. -/
theorem claim_c8_witness :
    (stackOpen [c8A, c8B]).2.1 = .error .rtDidNotYield
    ∧ exitEvs (stackOpen [c8A, c8B]).1 = [(0, some (.user "E"), .ok true)] :=
  claim_c8_theorem c8A c8B "a0" 1 (.user "E") rfl
    (fun s x => by cases s <;> rfl) rfl rfl

/-!
## Behavioral predicates and the last-write-wins characterization
-/

@[simp] theorem pep479_idem {E : Type} (e : Exc E) :
    pep479 (pep479 e) = pep479 e := by
  cases e <;> rfl

/-- The resource's generator yields a first checkpoint on activation. -/
def EnterYields (g : Gen σ V S E) : Prop :=
  ∃ v s', g.step g.init .nxt = .yielded v s'

/-- The resource re-raises every exception thrown into it unchanged. -/
def PassThrough (g : Gen σ V S E) : Prop :=
  ∀ s (x : Exc E), g.step s (.thrown x) = .raised x

/-- A finalization pass over pass-through resources: every resource is
exited once with the same in-flight error, none suppresses, and the very
error survives. -/
theorem exitPass_passthrough [DecidableEq E] (l : List (Nat × Ctx σ V S E))
    (x : Exc E) (hx : pep479 x = x) (h : ∀ p ∈ l, PassThrough p.2.1) :
    exitPass ctxExit l (some x)
      = (l.map fun p => Ev.exitc p.1 (some x) (.ok false), some x) := by
  induction l with
  | nil => rfl
  | cons p rest ih =>
    obtain ⟨i, g, st⟩ := p
    have hpt : PassThrough g := h (i, g, st) (List.mem_cons_self _ _)
    have hstep : ctxExit ((g, st) : Ctx σ V S E) (some x)
        = (.ok false, (g, .fin)) := by
      cases st with
      | fin => simp [ctxExit, genStep]
      | run s => simp [ctxExit, genStep, hpt s x, hx]
    simp only [exitPass, hstep]
    rw [ih (fun q hq => h q (List.mem_cons_of_mem _ hq))]
    simp

/-- The three ways a resource's finalize can treat the in-flight error:
suppress it, pass it through unchanged, or replace it with another error
(translation); with no error in flight, `replace` raises afresh and the
other two finish cleanly. -/
inductive Decision (E : Type) where
  | suppress
  | pass
  | replace (e' : Exc E)
  deriving DecidableEq, Repr

/-- The spec-side effect of one finalize decision on the carried error. -/
def applyDecision {E : Type} : Decision E → Option (Exc E) → Option (Exc E)
  | .suppress, _ => none
  | .pass, exc => exc
  | .replace e', _ => some e'

/-- The spec-side characterization of a full reverse finalization pass:
scanning outward, the last write wins. -/
def lastWriteWins {E : Type} (ds : List (Decision E))
    (exc : Option (Exc E)) : Option (Exc E) :=
  ds.foldl (fun exc d => applyDecision d exc) exc

/-- A resource whose generator, suspended at the internal state `s0` it
reached on activation, implements a given finalize decision: its reaction
to a thrown error and to a plain resume at `s0` encodes suppression,
pass-through, or translation into `e'`. -/
def DecidesAs (g : Gen σ V S E) (s0 : σ) : Decision E → Prop
  | .suppress => (∀ x : Exc E, g.step s0 (.thrown x) = .stopped)
      ∧ g.step s0 .nxt = .stopped
  | .pass => (∀ x : Exc E, g.step s0 (.thrown x) = .raised x)
      ∧ g.step s0 .nxt = .stopped
  | .replace e' => pep479 e' = e'
      ∧ (∀ x : Exc E, g.step s0 (.thrown x) = .raised e')
      ∧ g.step s0 .nxt = .raised e'

/-- A resource that yields a checkpoint on activation and then, from the
state it reached, implements the finalize decision `d`. -/
def ActivatesThenDecides (g : Gen σ V S E) (d : Decision E) : Prop :=
  ∃ v s0, g.step g.init .nxt = .yielded v s0 ∧ DecidesAs g s0 d

/-- The coordinator's finalization pass refines the spec's last-write-wins
rule: over live resources implementing decisions, the error surviving
`exitPass` is exactly `lastWriteWins` of the decisions. -/
theorem exitPass_lww [DecidableEq E] {l : List (Nat × Ctx σ V S E)}
    {ds : List (Decision E)}
    (hcorr : List.Forall₂
      (fun (p : Nat × Ctx σ V S E) d =>
        ∃ s0, p.2.2 = GenState.run s0 ∧ DecidesAs p.2.1 s0 d) l ds)
    (exc : Option (Exc E)) (hexc : ∀ x, exc = some x → pep479 x = x) :
    (exitPass ctxExit l exc).2 = lastWriteWins ds exc := by
  induction hcorr generalizing exc with
  | nil => rfl
  | @cons p d l' ds' hpd htail ih =>
    obtain ⟨i, g, st⟩ := p
    obtain ⟨s0, hs0, hdec⟩ := hpd
    simp only at hs0 hdec
    subst hs0
    cases d with
    | suppress =>
      obtain ⟨hthr0, hnxt0⟩ := hdec
      have hthr : ∀ x : Exc E, g.step s0 (.thrown x) = .stopped := hthr0
      have hnxt : g.step s0 .nxt = GenResp.stopped (V := V) := hnxt0
      cases exc with
      | none =>
        have hstep : ctxExit ((g, GenState.run s0) : Ctx σ V S E) none
            = (.ok false, (g, .fin)) := by
          simp [ctxExit, genStep, hnxt]
        simp only [exitPass, hstep]
        rw [ih none (by simp)]
        rfl
      | some x =>
        have hstep : ctxExit ((g, GenState.run s0) : Ctx σ V S E) (some x)
            = (.ok true, (g, .fin)) := by
          simp [ctxExit, genStep, hthr x]
        simp only [exitPass, hstep]
        rw [ih none (by simp)]
        rfl
    | pass =>
      obtain ⟨hthr0, hnxt0⟩ := hdec
      have hthr : ∀ x : Exc E, g.step s0 (.thrown x) = .raised x := hthr0
      have hnxt : g.step s0 .nxt = GenResp.stopped (V := V) := hnxt0
      cases exc with
      | none =>
        have hstep : ctxExit ((g, GenState.run s0) : Ctx σ V S E) none
            = (.ok false, (g, .fin)) := by
          simp [ctxExit, genStep, hnxt]
        simp only [exitPass, hstep]
        rw [ih none (by simp)]
        rfl
      | some x =>
        have hstep : ctxExit ((g, GenState.run s0) : Ctx σ V S E) (some x)
            = (.ok false, (g, .fin)) := by
          simp [ctxExit, genStep, hthr x, hexc x rfl]
        simp only [exitPass, hstep]
        rw [ih (some x) hexc]
        rfl
    | replace e' =>
      obtain ⟨he', hthr0, hnxt0⟩ := hdec
      have hthr : ∀ x : Exc E, g.step s0 (.thrown x) = .raised e' := hthr0
      have hnxt : g.step s0 .nxt = GenResp.raised (V := V) e' := hnxt0
      have hexc' : ∀ x, (some e' : Option (Exc E)) = some x → pep479 x = x := by
        intro x hxx
        cases hxx
        exact he'
      cases exc with
      | none =>
        have hstep : ctxExit ((g, GenState.run s0) : Ctx σ V S E) none
            = (.raised e', (g, .fin)) := by
          simp [ctxExit, genStep, hnxt, he']
        simp only [exitPass, hstep]
        rw [ih (some e') hexc']
        rfl
      | some x =>
        by_cases hx : e' = x
        · subst hx
          have hstep : ctxExit ((g, GenState.run s0) : Ctx σ V S E) (some e')
              = (.ok false, (g, .fin)) := by
            simp [ctxExit, genStep, hthr e', he']
          simp only [exitPass, hstep]
          rw [ih (some e') hexc']
          rfl
        · have hstep : ctxExit ((g, GenState.run s0) : Ctx σ V S E) (some x)
              = (.raised e', (g, .fin)) := by
            simp [ctxExit, genStep, hthr x, he', hx]
          simp only [exitPass, hstep]
          rw [ih (some e') hexc']
          rfl

theorem forall₂_enumFrom {α β : Type} {R : α → β → Prop} {l : List α}
    {l' : List β} (h : List.Forall₂ R l l') (i : Nat) :
    List.Forall₂ (fun (p : Nat × α) b => R p.2 b) (enumFrom i l) l' := by
  induction h generalizing i with
  | nil => exact .nil
  | cons h1 h2 ih => exact .cons h1 (ih _)

theorem forall₂_comp {α β γ : Type} {R : α → β → Prop} {Q : β → γ → Prop}
    {P : α → γ → Prop} (hc : ∀ a b c, R a b → Q b c → P a c) :
    ∀ {l1 : List α} {l2 : List β} {l3 : List γ},
      List.Forall₂ R l1 l2 → List.Forall₂ Q l2 l3 → List.Forall₂ P l1 l3 := by
  intro l1 l2 l3 h12
  induction h12 generalizing l3 with
  | nil =>
    intro h23
    cases h23
    exact .nil
  | cons h1 h2 ih =>
    intro h23
    cases h23 with
    | cons h3 h4 => exact .cons (hc _ _ _ h1 h3) (ih h4)

/-- Successful activation of a whole list: every resource yields, so the
activation loop returns `ok`, and each entered resource is its generator
suspended exactly at the state its activation reached. -/
theorem enterAll_all_ok {i : Nat} {gens : List (Gen σ V S E)}
    (h : ∀ g ∈ gens, EnterYields g) :
    ∃ ys cs',
      (enterAll i (gens.map fun g =>
        ((g, GenState.run g.init) : Ctx σ V S E))).2 = .ok ys cs'
      ∧ List.Forall₂ (fun (c : Ctx σ V S E) (g : Gen σ V S E) =>
          c.1 = g ∧ ∃ v s0, g.step g.init .nxt = .yielded v s0
            ∧ c.2 = GenState.run s0) cs' gens := by
  induction gens generalizing i with
  | nil => exact ⟨[], [], rfl, List.Forall₂.nil⟩
  | cons g rest ih =>
    obtain ⟨v, s', hg⟩ := h g (List.mem_cons_self _ _)
    obtain ⟨ys, cs', hq, hf⟩ :=
      ih (i := i + 1) (fun g' hg' => h g' (List.mem_cons_of_mem _ hg'))
    refine ⟨v :: ys, (g, .run s') :: cs', ?_,
      List.Forall₂.cons ⟨rfl, v, s', hg, rfl⟩ hf⟩
    simp only [List.map_cons, enterAll, genStep, hg]
    rw [hq]

/-- The caller-visible result of a completed finalization with surviving
error `exc`: StopIteration when nothing survives, otherwise the raised
error (after the PEP 479 conversion). -/
def resOfExc {V E : Type} : Option (Exc E) → CallRes V E
  | none => .stop
  | some e => .raised (pep479 e)

/-- Opening a stack of decision-implementing resources and then aborting
it with a user error: the caller observes exactly the last-write-wins
outcome of the decisions in reverse resource order. -/
theorem forall₂_mem_left {α β : Type} {R : α → β → Prop} {l : List α}
    {l' : List β} (h : List.Forall₂ R l l') {a : α} (ha : a ∈ l) :
    ∃ b, R a b := by
  induction h with
  | nil => simp at ha
  | cons h1 h2 ih =>
    rcases List.mem_cons.mp ha with ha | ha
    · subst ha
      exact ⟨_, h1⟩
    · exact ih ha

theorem runStack_throw_lww [DecidableEq E] (gens : List (Gen σ V S E))
    (ds : List (Decision E)) (u : E)
    (h2 : List.Forall₂
      (fun (g : Gen σ V S E) d => ActivatesThenDecides g d) gens ds) :
    (runStack gens [Call.throw (.user u)]).calls.map Prod.snd
      = [resOfExc (lastWriteWins ds.reverse (some (.user u)))] := by
  have h1 : ∀ g ∈ gens, EnterYields g := by
    intro g hg
    obtain ⟨d, v, s0, hstep, -⟩ := forall₂_mem_left h2 hg
    exact ⟨v, s0, hstep⟩
  obtain ⟨ys, cs', hq, hf⟩ := enterAll_all_ok h1
  have hcomp : List.Forall₂ (fun (c : Ctx σ V S E) d =>
      ∃ s0, c.2 = GenState.run s0 ∧ DecidesAs c.1 s0 d) cs' ds := by
    refine forall₂_comp ?_ hf h2
    rintro c g d ⟨hcg, v, s0, hstep, hst⟩ ⟨v2, s02, hstep2, hdec⟩
    rw [hstep] at hstep2
    injection hstep2 with hv hs
    subst hcg
    exact ⟨s0, hst, by rw [hs]; exact hdec⟩
  have hcorr : List.Forall₂ (fun (p : Nat × Ctx σ V S E) d =>
      ∃ s0, p.2.2 = GenState.run s0 ∧ DecidesAs p.2.1 s0 d)
      (enum cs').reverse ds.reverse :=
    List.rel_reverse (forall₂_enumFrom hcomp 0)
  have hl := exitPass_lww hcorr (some (.user u))
    (by intro x hx; cases hx; rfl)
  have hopen2 : (stackOpen gens).2.2 = .suspFirst cs' := by
    simp only [stackOpen]
    rw [hq]
  have hres : stackResume (StackSt.suspFirst cs') (.thrown (.user u))
      = finishUp ctxExit cs' (some (.user u)) := by
    cases cs' <;> rfl
  rw [runStack_calls_eq, hopen2]
  rcases hlw : (exitPass ctxExit (enum cs').reverse (some (.user u))).2
      with - | e <;> rw [hlw] at hl <;>
  · simp only [runCalls, doCall, hres, finishUp, finishUpR, hlw]
    rw [← hl]
    rfl

/-- C5: during one full reverse finalization pass over resources that each
suppress, pass through, or translate the carried error, at most one error
survives, and the caller-visible outcome is exactly the "last write wins"
fold of the per-resource decisions scanning outward (reverse resource
order): a raise replaces the carried error, a suppression clears it, and a
translated error is carried onward unchanged. -/
theorem claim_c5 [DecidableEq E] (gens : List (Gen σ V S E))
    (ds : List (Decision E)) (u : E)
    (h2 : List.Forall₂
      (fun (g : Gen σ V S E) d => ActivatesThenDecides g d) gens ds) :
    (runStack gens [Call.throw (.user u)]).calls.map Prod.snd
      = [resOfExc (lastWriteWins ds.reverse (some (.user u)))] :=
  runStack_throw_lww gens ds u h2

/-- A resource for the concrete scenarios: checkpoint `"p"`, then pass
every thrown error through unchanged and finish cleanly on resume. -/
def c5Pass : Gen Nat String String String :=
  ⟨0, fun s ev =>
    match s, ev with
    | 0, .nxt => .yielded "p" 1
    | _, .thrown x => .raised x
    | _, _ => .stopped⟩

/-- A resource for the concrete scenarios: checkpoint `"s"`, then suppress
every thrown error and finish cleanly on resume. -/
def c5Sup : Gen Nat String String String :=
  ⟨0, fun s ev =>
    match s, ev with
    | 0, .nxt => .yielded "s" 1
    | _, _ => .stopped⟩

/-- A resource for the concrete scenarios: checkpoint `"r"`, then replace
any thrown error (and raise afresh on resume) with the user error `"R"`. -/
def c5Rep : Gen Nat String String String :=
  ⟨0, fun s ev =>
    match s, ev with
    | 0, .nxt => .yielded "r" 1
    | _, _ => .raised (.user "R")⟩

/-- Witness for the C5 theorem: pass (innermost), suppress, replace — the
last write, the replacement error, wins. -/
theorem claim_c5_witness :
    (runStack [c5Rep, c5Sup, c5Pass] [Call.throw (.user "u")]).calls.map
        Prod.snd
      = [resOfExc (lastWriteWins
          ([Decision.replace (.user "R"), Decision.suppress,
            Decision.pass]).reverse (some (.user "u")))]
    ∧ (resOfExc (lastWriteWins
          ([Decision.replace (.user "R"), Decision.suppress,
            Decision.pass]).reverse (some (.user "u")))
        : CallRes String String)
      = CallRes.raised (.user "R") :=
  ⟨claim_c5 [c5Rep, c5Sup, c5Pass]
    [Decision.replace (.user "R"), Decision.suppress, Decision.pass] "u"
    (.cons ⟨"r", 1, rfl, rfl, fun _ => rfl, rfl⟩
      (.cons ⟨"s", 1, rfl, fun _ => rfl, rfl⟩
        (.cons ⟨"p", 1, rfl, fun _ => rfl, rfl⟩ .nil))), rfl⟩

theorem lww_all_pass {E : Type} (ds : List (Decision E))
    (exc : Option (Exc E)) (h : ∀ d ∈ ds, d = .pass) :
    lastWriteWins ds exc = exc := by
  induction ds generalizing exc with
  | nil => rfl
  | cons d rest ih =>
    rw [show d = Decision.pass from h d (List.mem_cons_self _ _)]
    exact ih exc (fun d' hd' => h d' (List.mem_cons_of_mem _ hd'))

theorem lww_none {E : Type} (ds : List (Decision E))
    (h : ∀ d ∈ ds, d = .pass ∨ d = .suppress) :
    lastWriteWins ds none = none := by
  induction ds with
  | nil => rfl
  | cons d rest ih =>
    rcases h d (List.mem_cons_self _ _) with hd | hd <;> subst hd <;>
      exact ih (fun d' hd' => h d' (List.mem_cons_of_mem _ hd'))

theorem lww_suppress_mem {E : Type} (ds : List (Decision E))
    (exc : Option (Exc E)) (h : ∀ d ∈ ds, d = .pass ∨ d = .suppress)
    (hmem : Decision.suppress ∈ ds) : lastWriteWins ds exc = none := by
  induction ds generalizing exc with
  | nil => simp at hmem
  | cons d rest ih =>
    rcases h d (List.mem_cons_self _ _) with hd | hd <;> subst hd
    · rcases List.mem_cons.mp hmem with hmem | hmem
      · exact absurd hmem (by simp)
      · exact ih exc (fun d' hd' => h d' (List.mem_cons_of_mem _ hd')) hmem
    · exact lww_none rest (fun d' hd' => h d' (List.mem_cons_of_mem _ hd'))

/-- C4: when a stack of activated resources is aborted with a user error,
(i) if every resource passes errors through, the exception object reaching
the caller is the identical injected error (no copy, no translation); and
(ii) if the resources only pass through or suppress and at least one of
them suppresses, the caller never sees the injected error — the stack
completes silently. -/
theorem claim_c4 [DecidableEq E] (gens : List (Gen σ V S E))
    (ds : List (Decision E)) (u : E)
    (h2 : List.Forall₂
      (fun (g : Gen σ V S E) d => ActivatesThenDecides g d) gens ds) :
    ((∀ d ∈ ds, d = .pass) →
      (runStack gens [Call.throw (.user u)]).calls.map Prod.snd
        = [CallRes.raised (.user u)])
    ∧ ((∀ d ∈ ds, d = .pass ∨ d = .suppress) → Decision.suppress ∈ ds →
      (runStack gens [Call.throw (.user u)]).calls.map Prod.snd
        = [CallRes.stop]) := by
  constructor
  · intro hall
    rw [runStack_throw_lww gens ds u h2,
      lww_all_pass _ _ (fun d hd => hall d (List.mem_reverse.mp hd))]
    rfl
  · intro hps hmem
    rw [runStack_throw_lww gens ds u h2,
      lww_suppress_mem _ _ (fun d hd => hps d (List.mem_reverse.mp hd))
        (List.mem_reverse.mpr hmem)]
    rfl

/-- Witness for the C4 theorem: two pass-through resources surface the
identical injected error; with a suppressor among pass-through resources
the caller sees silent completion. -/
theorem claim_c4_witness :
    (runStack [c5Pass, c5Pass] [Call.throw (.user "u")]).calls.map Prod.snd
      = [CallRes.raised (.user "u")]
    ∧ (runStack [c5Pass, c5Sup] [Call.throw (.user "u")]).calls.map Prod.snd
      = [CallRes.stop] :=
  ⟨(claim_c4 [c5Pass, c5Pass] [Decision.pass, Decision.pass] "u"
      (.cons ⟨"p", 1, rfl, fun x => rfl, rfl⟩
        (.cons ⟨"p", 1, rfl, fun x => rfl, rfl⟩ .nil))).1 (by decide),
   (claim_c4 [c5Pass, c5Sup] [Decision.pass, Decision.suppress] "u"
      (.cons ⟨"p", 1, rfl, fun x => rfl, rfl⟩
        (.cons ⟨"s", 1, rfl, fun x => rfl, rfl⟩ .nil))).2 (by decide)
     (by decide)⟩

/-!
## Activation failure (C2)
-/

/-- The error that a resource's `__enter__` raises when activation fails:
RuntimeError("generator didn't yield") for a generator that finishes
without a checkpoint, or the (PEP 479-converted) exception it raised. -/
def enterFailResp (g : Gen σ V S E) : Option (Exc E) :=
  match genStep ((g, GenState.run g.init) : Ctx σ V S E) .nxt with
  | (.finished, _) => some .rtDidNotYield
  | (.raised e, _) => some e
  | (.yielded _, _) => none

theorem genStep_raised_pep479 {g : Gen σ V S E} {s : σ} {ev : GenEvent S E}
    {e : Exc E} {c' : Ctx σ V S E}
    (h : genStep ((g, GenState.run s) : Ctx σ V S E) ev = (.raised e, c')) :
    pep479 e = e := by
  cases hs : g.step s ev <;> simp [genStep, hs] at h
  obtain ⟨he, -⟩ := h
  rw [← he]
  exact pep479_idem _

theorem enterFailResp_pep479 {g : Gen σ V S E} {e : Exc E}
    (h : enterFailResp g = some e) : pep479 e = e := by
  unfold enterFailResp at h
  rcases hg : genStep ((g, GenState.run g.init) : Ctx σ V S E) .nxt
    with ⟨r, c⟩
  rw [hg] at h
  cases r with
  | yielded v => simp at h
  | finished =>
    simp at h
    rw [← h]
    rfl
  | raised e2 =>
    simp at h
    rw [← h]
    exact genStep_raised_pep479 hg

theorem exitEvs_map_exitc (l : List (Nat × Ctx σ V S E)) (x : Exc E) :
    exitEvs (l.map fun p =>
        (Ev.exitc p.1 (some x) (ExitRes.ok false) : Ev V S E))
      = l.map fun p => (p.1, some x, ExitRes.ok false) := by
  induction l with
  | nil => rfl
  | cons p rest ih => simp [ih]

/-- Activation of a list whose `good` prefix yields and whose next
resource fails: the loop enters exactly the prefix (in order), then
fails with the bad resource's error; resources beyond the failing one are
never touched, and the failing one is touched only by its `__enter__`. -/
theorem enterAll_prefix_fail (i : Nat) (good : List (Gen σ V S E))
    (bad : Gen σ V S E) (rest : List (Gen σ V S E)) (eA : Exc E)
    (hGood : ∀ g ∈ good, EnterYields g)
    (hBad : enterFailResp bad = some eA) :
    ∃ cs',
      (enterAll i ((good ++ bad :: rest).map fun g =>
        ((g, GenState.run g.init) : Ctx σ V S E))).2 = .fail eA cs'
      ∧ cs'.map Prod.fst = good
      ∧ enterOks (enterAll i ((good ++ bad :: rest).map fun g =>
          ((g, GenState.run g.init) : Ctx σ V S E))).1
          = List.range' i good.length
      ∧ exitEvs (enterAll i ((good ++ bad :: rest).map fun g =>
          ((g, GenState.run g.init) : Ctx σ V S E))).1 = []
      ∧ (∀ ev ∈ (enterAll i ((good ++ bad :: rest).map fun g =>
          ((g, GenState.run g.init) : Ctx σ V S E))).1,
          evIdx ev ≤ i + good.length
          ∧ (evIdx ev = i + good.length →
              ∃ r, ev = Ev.enter (i + good.length) r)) := by
  induction good generalizing i with
  | nil =>
    unfold enterFailResp at hBad
    rcases hg : genStep ((bad, GenState.run bad.init) : Ctx σ V S E) .nxt
      with ⟨r, c⟩
    rw [hg] at hBad
    cases r with
    | yielded v => simp at hBad
    | finished =>
      simp at hBad
      subst hBad
      refine ⟨[], ?_, rfl, ?_, ?_, ?_⟩ <;>
        simp [enterAll, hg, evIdx]
    | raised e2 =>
      simp at hBad
      subst hBad
      refine ⟨[], ?_, rfl, ?_, ?_, ?_⟩ <;>
        simp [enterAll, hg, evIdx]
  | cons g good' ih =>
    obtain ⟨v, s', hg⟩ := hGood g (List.mem_cons_self _ _)
    obtain ⟨cs'', hfail, hmap, hoks, hexits, hevs⟩ :=
      ih (i + 1) (fun g' hg' => hGood g' (List.mem_cons_of_mem _ hg'))
    refine ⟨(g, .run s') :: cs'', ?_, by simp [hmap], ?_, ?_, ?_⟩
    · simp only [List.cons_append, List.map_cons, enterAll, genStep, hg,
        List.append_eq]
      rw [hfail]
    · simp only [List.cons_append, List.map_cons, enterAll, genStep, hg,
        List.append_eq]
      rw [hfail]
      simp only [enterOks_cons_yield, hoks, List.length_cons]
      rw [List.range'_succ]
    · simp only [List.cons_append, List.map_cons, enterAll, genStep, hg,
        List.append_eq]
      rw [hfail]
      simp only [exitEvs_cons_enter]
      exact hexits
    · simp only [List.cons_append, List.map_cons, enterAll, genStep, hg,
        List.append_eq]
      rw [hfail]
      intro ev hev
      simp only at hev
      rcases List.mem_cons.mp hev with hev | hev
      · subst hev
        simp only [evIdx, List.length_cons]
        exact ⟨by omega, fun hidx => by omega⟩
      · obtain ⟨hle, heq⟩ := hevs ev hev
        simp only [List.length_cons]
        constructor
        · omega
        · intro hidx
          have hx : evIdx ev = i + 1 + good'.length := by omega
          obtain ⟨r, hr⟩ := heq hx
          exact ⟨r, by rw [hr]; congr 1; omega⟩

/-- C2: if the resource at index k (the one following the `good` prefix)
fails during activation — by raising or by completing without a
checkpoint — while resources 0..k-1 activate and pass errors through,
then resources 0..k-1 receive exactly one finalize call each, carrying
that very error, in order k-1, …, 0; no event touches resources beyond
index k; resource k itself is touched only by its failed `__enter__` and
is never finalized; and the error surfaces to the `open` caller. -/
theorem claim_c2 [DecidableEq E] (good : List (Gen σ V S E))
    (bad : Gen σ V S E) (rest : List (Gen σ V S E)) (eA : Exc E)
    (hGood : ∀ g ∈ good, EnterYields g ∧ PassThrough g)
    (hBad : enterFailResp bad = some eA) :
    (stackOpen (good ++ bad :: rest)).2.1 = .error eA
    ∧ exitEvs (stackOpen (good ++ bad :: rest)).1
        = ((List.range good.length).reverse.map fun j =>
            (j, some eA, ExitRes.ok false))
    ∧ (∀ ev ∈ (stackOpen (good ++ bad :: rest)).1, evIdx ev ≤ good.length)
    ∧ (∀ ev ∈ (stackOpen (good ++ bad :: rest)).1,
        evIdx ev = good.length → ∃ r, ev = Ev.enter good.length r) := by
  obtain ⟨cs', hfail, hmapfst, hoks, hexitevs, hevs⟩ :=
    enterAll_prefix_fail 0 good bad rest eA (fun g hg => (hGood g hg).1) hBad
  have hpe := enterFailResp_pep479 hBad
  have hlen : cs'.length = good.length := by
    rw [← hmapfst, List.length_map]
  have hpass : ∀ p ∈ (enum cs').reverse, PassThrough p.2.1 := by
    intro p hp
    have hmem : p.2 ∈ cs' := mem_enumFrom_snd (List.mem_reverse.mp hp)
    have hmem2 : p.2.1 ∈ good := by
      rw [← hmapfst]
      exact List.mem_map_of_mem _ hmem
    exact (hGood _ hmem2).2
  have hxp := exitPass_passthrough (enum cs').reverse eA hpe hpass
  have hidx : ∀ p ∈ (enum cs').reverse, p.1 < good.length := by
    intro p hp
    have hm : p.1 ∈ (enum cs').reverse.map Prod.fst :=
      List.mem_map_of_mem _ hp
    rw [List.map_reverse, enum_map_fst, hlen] at hm
    exact List.mem_range.mp (List.mem_reverse.mp hm)
  refine ⟨?_, ?_, ?_, ?_⟩
  · simp only [stackOpen, hfail, hxp]
    simp [hpe]
  · simp only [stackOpen, hfail, hxp]
    simp only [exitEvs_append, hexitevs, List.nil_append]
    rw [exitEvs_map_exitc]
    rw [show ((enum cs').reverse.map fun p =>
          (p.1, some eA, ExitRes.ok false))
        = ((enum cs').reverse.map Prod.fst).map
            (fun j => (j, some eA, ExitRes.ok false)) from by
      rw [List.map_map]
      rfl]
    rw [List.map_reverse, enum_map_fst, hlen]
  · simp only [stackOpen, hfail, hxp]
    intro ev hev
    rcases List.mem_append.mp hev with hev | hev
    · simpa using (hevs ev hev).1
    · obtain ⟨p, hp, hpe2⟩ := List.mem_map.mp hev
      rw [← hpe2]
      exact le_of_lt (by simpa [evIdx] using hidx p hp)
  · simp only [stackOpen, hfail, hxp]
    intro ev hev hk
    rcases List.mem_append.mp hev with hev | hev
    · obtain ⟨r, hr⟩ := (hevs ev hev).2 (by simpa using hk)
      exact ⟨r, by simpa using hr⟩
    · obtain ⟨p, hp, hpe2⟩ := List.mem_map.mp hev
      exfalso
      have hlt := hidx p hp
      rw [← hpe2] at hk
      simp [evIdx] at hk
      omega

/-- Witness for the C2 theorem: one pass-through resource, then a
resource failing activation with the user error "E", then a resource that
is never touched. -/
theorem claim_c2_witness :
    (stackOpen ([c5Pass] ++ c8B :: [c5Sup])).2.1 = .error (.user "E")
    ∧ exitEvs (stackOpen ([c5Pass] ++ c8B :: [c5Sup])).1
        = ((List.range 1).reverse.map fun j =>
            (j, some (.user "E"), ExitRes.ok false))
    ∧ (∀ ev ∈ (stackOpen ([c5Pass] ++ c8B :: [c5Sup])).1, evIdx ev ≤ 1)
    ∧ (∀ ev ∈ (stackOpen ([c5Pass] ++ c8B :: [c5Sup])).1,
        evIdx ev = 1 → ∃ r, ev = Ev.enter 1 r) :=
  claim_c2 [c5Pass] c8B [c5Sup] (.user "E")
    (by
      intro g hg
      rw [List.mem_singleton.mp hg]
      exact ⟨⟨"p", 1, rfl⟩, fun s x => by cases s <;> rfl⟩)
    rfl

/-- Witness for the C1 theorem: a single pass-through resource, a script
that throws a user error (which surfaces), closed afterwards; in the
synchronous coordinator and in the asynchronous one, the finalize calls
are the reverse of the activations, strictly decreasing, and appending a
close after the raising script adds no finalize call. -/
theorem claim_c1_witness :
    ((exitIdxs (runStack [c5Pass]
          ([Call.throw (.user "u")] ++ [Call.close])).trace
        = (enterOks (runStack [c5Pass]
            ([Call.throw (.user "u")] ++ [Call.close])).trace).reverse
      ∧ List.Pairwise (· > ·)
          (exitIdxs (runStack [c5Pass]
            ([Call.throw (.user "u")] ++ [Call.close])).trace))
    ∧ exitIdxs (runStack [c5Pass]
          ([Call.throw (.user "u")] ++ [Call.close])).trace
        = exitIdxs (runStack [c5Pass] [Call.throw (.user "u")]).trace)
    ∧ ((exitIdxs (arunStack true [c5Pass]
          ([Call.throw (.user "u")] ++ [Call.close])).trace
        = (enterOks (arunStack true [c5Pass]
            ([Call.throw (.user "u")] ++ [Call.close])).trace).reverse
      ∧ List.Pairwise (· > ·)
          (exitIdxs (arunStack true [c5Pass]
            ([Call.throw (.user "u")] ++ [Call.close])).trace))
    ∧ exitIdxs (arunStack true [c5Pass]
          ([Call.throw (.user "u")] ++ [Call.close])).trace
        = exitIdxs (arunStack true [c5Pass] [Call.throw (.user "u")]).trace) :=
  ⟨⟨(claim_c1 [c5Pass] [Call.throw (.user "u")]).1.1,
    (claim_c1 [c5Pass] [Call.throw (.user "u")]).1.2 [Call.close]
      ⟨([Ev.exitc 0 (some (.user "u")) (ExitRes.ok false)],
        CallRes.raised (.user "u")),
       by decide, .user "u", rfl⟩⟩,
   ⟨((claim_c1 [c5Pass] [Call.throw (.user "u")]).2 true).1,
    ((claim_c1 [c5Pass] [Call.throw (.user "u")]).2 true).2 [Call.close]
      ⟨([Ev.exitc 0 (some (.user "u")) (ExitRes.ok false)],
        CallRes.raised (.user "u")),
       by decide, .user "u", rfl⟩⟩⟩

end Apluggy
